import Mathlib

/-!
# Implicit relaxation of a finite-volume matrix: `Foam::fvMatrix<Type>::relax2`

A shallow embedding of `src/fvMatrix.C` and the properties of its
specification.

Conventions of the embedding.

* `scalar` is modelled by the rationals: all arithmetic is exact, so rounding
  is outside the model.
* A value of the template parameter `Type` is the list of its components.
* A field (`scalarField`, `Field<Type>`, `labelUList`) is a list, read with
  `List.getD`.  The source indexes without bounds checks; consistent sizes and
  in-range addressing are the caller's contract, and theorems that depend on
  them carry them as hypotheses.
* The statements of `relax2` are kept in program order; every stage is a named
  definition so that theorems can speak about intermediate arrays.
-/

namespace Foam

/-! ## Primitives used by the routine -/

/-- Modelled from the spec: the value type `Type` of the field (scalar, vector, ...),
declared outside `src/`; a value is the list of its components. -/
abbrev Val := List ℚ

/-- Modelled from the spec: `component(value, index)`, the library selector of one
component ("component 0 is the representative scalar component"). -/
def component (v : Val) (d : Nat) : ℚ := v.getD d 0

/-- Modelled from the spec: `mag`, the magnitude `|x|` of a scalar. -/
def mag (x : ℚ) : ℚ := |x|

/-- Modelled from the spec: `cmptMag`, the component-wise magnitude of a value. -/
def cmptMag (v : Val) : Val := v.map mag

/-- Modelled from the spec: `cmptMax`, the largest component of a value (with
`cmptMag`: the "maximum-magnitude component"); starts from component 0 and
folds `max` over the others. -/
def cmptMax : Val → ℚ
  | [] => 0
  | x :: xs => xs.foldl max x

/-- Modelled from the spec: `cmptMin`, the "minimum component" of a value; starts
from component 0 and folds `min` over the others. -/
def cmptMin : Val → ℚ
  | [] => 0
  | x :: xs => xs.foldl min x

/-- The statement `xs[i] += v` on a scalar array. -/
def addAt : List ℚ → Nat → ℚ → List ℚ
  | [], _, _ => []
  | x :: xs, 0, v => (x + v) :: xs
  | x :: xs, i + 1, v => x :: addAt xs i v

/-- Component-wise sum of two values (`Type += Type`). -/
def vadd (a b : Val) : Val := List.zipWith (fun x y => x + y) a b

/-- Product of a scalar and a value (`scalar * Type`). -/
def vscale (s : ℚ) (v : Val) : Val := v.map (fun x => s * x)

/-! ## Data model -/

/-- One interior face of the matrix: the cells it connects and its two
off-diagonal coefficients. -/
structure lduFace where
  /-- Owner cell, `lowerAddr()[face]`. -/
  l : Nat
  /-- Neighbour cell, `upperAddr()[face]`. -/
  u : Nat
  /-- Coefficient `lower()[face]`. -/
  lower : ℚ
  /-- Coefficient `upper()[face]`. -/
  upper : ℚ
deriving DecidableEq

/-- One boundary patch, as `relax2` reads it for a patch index `patchI`. -/
structure fvPatch where
  /-- Face count `psi_.boundaryField()[patchI].size()`. -/
  size : Nat
  /-- Capability flag `psi_.boundaryField()[patchI].coupled()`. -/
  coupled : Bool
  /-- Face to cell addressing `lduAddr().patchAddr(patchI)`. -/
  patchAddr : List Nat
  /-- Per-face coefficients `internalCoeffs_[patchI]`. -/
  internalCoeffs : List Val
  /-- Per-face coefficients `boundaryCoeffs_[patchI]`. -/
  boundaryCoeffs : List Val
deriving DecidableEq

/-- The state `relax2` works on: the matrix and the field it belongs to. -/
structure fvMatrix where
  /-- Diagonal `diag()`, one scalar per cell. -/
  diag : List ℚ
  /-- Source `source()`, one value per cell. -/
  source : List Val
  /-- Interior faces with their off-diagonal coefficients. -/
  interior : List lduFace
  /-- Cell values `psi_.internalField()`. -/
  psi : List Val
  /-- Boundary patches, in the order of `psi_.boundaryField()`. -/
  patches : List fvPatch
deriving DecidableEq

/-! ## The routine -/

/-- Modelled from the spec: `sumMagOffDiag`, declared outside `src/`. For every
interior face the magnitude of each of its two coefficients is added to the
cell at the other end ("both directions of each face counted toward their
respective owner/neighbor cell"). -/
def sumMagOffDiag (faces : List lduFace) (sumOff : List ℚ) : List ℚ :=
  faces.foldl (fun s f => addAt (addAt s f.u (mag f.lower)) f.l (mag f.upper)) sumOff

/-- The loop `forAll(pa, face) { xs[pa[face]] += g(face); }`. -/
def faceLoop (pa : List Nat) (g : Nat → ℚ) (xs : List ℚ) : List ℚ :=
  (List.range pa.length).foldl (fun ys face => addAt ys (pa.getD face 0) (g face)) xs

/-- Body of the first patch loop (source lines 29-57) for one patch, acting on
the pair `(D, sumOff)`. The two updates of the coupled face loop touch
different arrays and are written as two loops over the same faces. -/
def addPatch (p : fvPatch) (st : List ℚ × List ℚ) : List ℚ × List ℚ :=
  if p.size ≠ 0 then
    if p.coupled then
      (faceLoop p.patchAddr (fun face => component (p.internalCoeffs.getD face []) 0) st.1,
       faceLoop p.patchAddr (fun face => mag (component (p.boundaryCoeffs.getD face []) 0)) st.2)
    else
      (faceLoop p.patchAddr (fun face => cmptMax (cmptMag (p.internalCoeffs.getD face []))) st.1,
       st.2)
  else st

/-- Lines 16-58: `D` and `sumOff` after the interior accumulation and the
boundary contributions. -/
def aggregate (m : fvMatrix) : List ℚ × List ℚ :=
  m.patches.foldl (fun st p => addPatch p st)
    (m.diag, sumMagOffDiag m.interior (List.replicate m.diag.length 0))

/-- Lines 95-98: `D[celli] = max(mag(D[celli]), sumOff[celli])` for every cell. -/
def dominant (D sumOff : List ℚ) : List ℚ :=
  List.zipWith (fun d s => max (mag d) s) D sumOff

/-- Line 101: `D /= alpha`. -/
def scaleDiag (alpha : ℚ) (D : List ℚ) : List ℚ := D.map (fun d => d / alpha)

/-- Body of the second patch loop (lines 106-127) for one patch; `xs[i] -= v` is
written as `xs[i] += -v`. -/
def removePatch (p : fvPatch) (D : List ℚ) : List ℚ :=
  if p.size ≠ 0 then
    if p.coupled then
      faceLoop p.patchAddr (fun face => -component (p.internalCoeffs.getD face []) 0) D
    else
      faceLoop p.patchAddr (fun face => -cmptMin (p.internalCoeffs.getD face [])) D
  else D

/-- Lines 93-101: the diagonal after dominance enforcement and scaling, before
the boundary contributions are removed again. -/
def relaxedDiag (alpha : ℚ) (m : fvMatrix) : List ℚ :=
  scaleDiag alpha (dominant (aggregate m).1 (aggregate m).2)

/-- Lines 93-128: the final diagonal. -/
def finalDiag (alpha : ℚ) (m : fvMatrix) : List ℚ :=
  m.patches.foldl (fun D p => removePatch p D) (relaxedDiag alpha m)

/-- Line 131: `S += (D - D0)*psi_.internalField()`. -/
def updateSource (S : List Val) (D D0 : List ℚ) (psi : List Val) : List Val :=
  List.zipWith vadd S (List.zipWith vscale (List.zipWith (fun d d0 => d - d0) D D0) psi)

/-- The three statistics of the dominance test (lines 64-66). -/
structure NonDominance where
  /-- Number of non-dominant cells. -/
  nNon : Nat
  /-- Maximum relative non-dominance. -/
  maxNon : ℚ
  /-- Sum, and after line 82 average, of the relative non-dominance. -/
  sumNon : ℚ
deriving DecidableEq

/-- A division of the diagnostic branch whose divisor is zero: it has no
rational value (in the program: an infinity, a NaN or a trapped signal). -/
inductive DivFault where
  /-- Line 69 divided by `mag(D[celli]) = 0`. -/
  | ratio (celli : Nat)
  /-- Line 82 divided by a cell count of zero. -/
  | average
deriving DecidableEq

/-- Lines 67-77: the loop over the cells in `cells`, threading the statistics.
The division of line 69 is unguarded in the source; a zero divisor is recorded
as a fault. -/
def nonDominanceLoop (D sumOff : List ℚ) : List Nat → NonDominance → Except DivFault NonDominance
  | [], acc => .ok acc
  | celli :: rest, acc =>
    if mag (D.getD celli 0) = 0 then .error (.ratio celli)
    else
      let d := (sumOff.getD celli 0 - D.getD celli 0) / mag (D.getD celli 0)
      nonDominanceLoop D sumOff rest
        (if d > 0 then ⟨acc.nNon + 1, max acc.maxNon d, acc.sumNon + d⟩ else acc)

/-- Lines 61-90 on a single partition, where the reductions of lines 79-82 are
identities: the reported statistics. -/
def nonDominance (D sumOff : List ℚ) : Except DivFault NonDominance :=
  match nonDominanceLoop D sumOff (List.range D.length) ⟨0, 0, 0⟩ with
  | .error e => .error e
  | .ok acc =>
    if D.length = 0 then .error .average
    else .ok ⟨acc.nNon, acc.maxNon, acc.sumNon / (D.length : ℚ)⟩

/-- The routine `Foam::fvMatrix<Type>::relax2(alpha)`, with the process-wide
`debug` switch as a parameter. Returns the state after the call and, when
`debug` is set and the call is not skipped, the outcome of the dominance test.
The two `InfoIn` messages (lines 9-14 and 84-89) only print and have no
counterpart here. -/
def relax2 (debug : Bool) (alpha : ℚ) (m : fvMatrix) :
    fvMatrix × Option (Except DivFault NonDominance) :=
  if alpha ≤ 0 then (m, none)
  else
    let D0 := m.diag
    let agg := aggregate m
    let report := if debug then some (nonDominance agg.1 agg.2) else none
    let D := dominant agg.1 agg.2
    let D := scaleDiag alpha D
    let D := m.patches.foldl (fun D p => removePatch p D) D
    let S := updateSource m.source D D0 m.psi
    ({ m with diag := D, source := S }, report)

/-! ## Quantities the properties are stated with -/

/-- Sum of `g face` over the faces of the addressing `pa` that belong to cell `c`. -/
def faceSum (pa : List Nat) (g : Nat → ℚ) (c : Nat) : ℚ :=
  (((List.range pa.length).filter (fun face => pa.getD face 0 = c)).map g).sum

/-- Sum of `g p face` over all faces of non-empty patches addressed to cell `c`. -/
def boundarySum (patches : List fvPatch) (g : fvPatch → Nat → ℚ) (c : Nat) : ℚ :=
  (patches.map (fun p => if p.size ≠ 0 then faceSum p.patchAddr (g p) c else 0)).sum

/-- What one boundary face adds to the diagonal: component 0 of its
`internalCoeffs` on a coupled patch, the maximum-magnitude component otherwise. -/
def addedCoeff (p : fvPatch) (face : Nat) : ℚ :=
  if p.coupled then component (p.internalCoeffs.getD face []) 0
  else cmptMax (cmptMag (p.internalCoeffs.getD face []))

/-- What is later subtracted for one boundary face: component 0 of its
`internalCoeffs` on a coupled patch, the minimum component otherwise. -/
def removedCoeff (p : fvPatch) (face : Nat) : ℚ :=
  if p.coupled then component (p.internalCoeffs.getD face []) 0
  else cmptMin (p.internalCoeffs.getD face [])

/-- What one boundary face adds to `sumOff`: the magnitude of component 0 of its
`boundaryCoeffs` on a coupled patch, nothing otherwise. -/
def offCoeff (p : fvPatch) (face : Nat) : ℚ :=
  if p.coupled then mag (component (p.boundaryCoeffs.getD face []) 0) else 0

/-- Sum of the off-diagonal magnitudes of the interior faces incident to `c`. -/
def interiorSumMag (faces : List lduFace) (c : Nat) : ℚ :=
  ((faces.filter (fun f => f.u = c)).map (fun f => mag f.lower)).sum
    + ((faces.filter (fun f => f.l = c)).map (fun f => mag f.upper)).sum

/-- The boundary amount `A[c]` added to the diagonal of cell `c`. -/
def boundaryAdded (m : fvMatrix) (c : Nat) : ℚ := boundarySum m.patches addedCoeff c

/-- The boundary amount `R[c]` subtracted from the diagonal of cell `c`. -/
def boundaryRemoved (m : fvMatrix) (c : Nat) : ℚ := boundarySum m.patches removedCoeff c

/-- The accumulated off-diagonal magnitude `sumOff[c]`: interior faces plus
coupled boundary faces. -/
def sumOffTotal (m : fvMatrix) (c : Nat) : ℚ :=
  interiorSumMag m.interior c + boundarySum m.patches offCoeff c

/-! ## Concrete systems -/

/-- The end-to-end scenario: one cell, no interior face, one non-coupled
boundary face with `internalCoeffs = 4`, `D = 1`, `S = 0`, `x = 2`. -/
def scenario : fvMatrix :=
  ⟨[1], [[0]], [], [[2]], [⟨1, false, [0], [[4]], []⟩]⟩

/-- Two cells joined by one interior face, a coupled patch with a face on each
cell and a non-coupled patch on cell 1, for a two-component field. -/
def twoCell : fvMatrix :=
  ⟨[3, -2], [[1, 0], [0, 1]], [⟨0, 1, -1, 2⟩], [[1, 2], [3, 4]],
    [⟨2, true, [0, 1], [[1, 7], [2, 0]], [[-3, 0], [1, 1]]⟩,
     ⟨1, false, [1], [[2, 5]], []⟩]⟩

/-- One cell with one non-coupled boundary face whose coefficient has the
components `[2, 5]`. -/
def asymmetric : fvMatrix :=
  ⟨[1], [[0, 0]], [], [[1, 1]], [⟨1, false, [0], [[2, 5]], []⟩]⟩

/-- One cell with one coupled boundary face, `internalCoeffs = 5` and
`boundaryCoeffs = 5`, and a zero diagonal. -/
def coupledCell : fvMatrix :=
  ⟨[0], [[0]], [], [[1]], [⟨1, true, [0], [[5]], [[5]]⟩]⟩

/-- One cell without any face and with a zero diagonal. -/
def zeroDiag : fvMatrix :=
  ⟨[0], [[0]], [], [[0]], []⟩

/-- Two cells joined by one interior face with both coefficients `1`, unit
diagonal and no boundary patch. -/
def interiorPair : fvMatrix :=
  ⟨[1, 1], [[0], [0]], [⟨0, 1, 1, 1⟩], [[1], [1]], []⟩

/-- One cell without any face and with a unit diagonal. -/
def unitCell : fvMatrix :=
  ⟨[1], [[0]], [], [[1]], []⟩

/-! ## Quantities of the dominance test -/

/-- The relative non-dominance `d = (sumOff[c] - D[c]) / |D[c]|` of cell `c`. -/
def nonDomRatio (D sumOff : List ℚ) (c : Nat) : ℚ :=
  (sumOff.getD c 0 - D.getD c 0) / |D.getD c 0|

/-- The positive values of `d` over the cells listed in `cells`, in cell order. -/
def positiveRatios (D sumOff : List ℚ) (cells : List Nat) : List ℚ :=
  (cells.map (nonDomRatio D sumOff)).filter (fun d => 0 < d)

/-! ## Array updates -/

theorem addAt_length (xs : List ℚ) (i : Nat) (v : ℚ) : (addAt xs i v).length = xs.length := by
  induction xs generalizing i with
  | nil => rfl
  | cons x xs ih =>
    cases i with
    | zero => rfl
    | succ i => simp [addAt, ih]

theorem getD_addAt (xs : List ℚ) (i : Nat) (v : ℚ) (c : Nat) (hc : c < xs.length) :
    (addAt xs i v).getD c 0 = xs.getD c 0 + (if i = c then v else 0) := by
  induction xs generalizing i c with
  | nil => simp at hc
  | cons x xs ih =>
    cases i with
    | zero =>
      cases c with
      | zero => simp [addAt]
      | succ c => simp [addAt]
    | succ i =>
      cases c with
      | zero => simp [addAt]
      | succ c =>
        have h := ih i c (by simpa using hc)
        simpa [addAt] using h

theorem foldl_addAt_length {ι : Type} (idx : List ι) (a : ι → Nat) (g : ι → ℚ) (xs : List ℚ) :
    (idx.foldl (fun ys i => addAt ys (a i) (g i)) xs).length = xs.length := by
  induction idx generalizing xs with
  | nil => rfl
  | cons i idx ih => simp [List.foldl_cons, ih, addAt_length]

theorem getD_foldl_addAt {ι : Type} (idx : List ι) (a : ι → Nat) (g : ι → ℚ) (xs : List ℚ)
    (c : Nat) (hc : c < xs.length) :
    (idx.foldl (fun ys i => addAt ys (a i) (g i)) xs).getD c 0
      = xs.getD c 0 + ((idx.filter (fun i => a i = c)).map g).sum := by
  induction idx generalizing xs with
  | nil => simp
  | cons i idx ih =>
    rw [List.foldl_cons, ih _ (by rw [addAt_length]; exact hc), getD_addAt _ _ _ _ hc]
    by_cases h : a i = c
    · simp [List.filter_cons, h]; ring
    · simp [List.filter_cons, h]

theorem faceLoop_length (pa : List Nat) (g : Nat → ℚ) (xs : List ℚ) :
    (faceLoop pa g xs).length = xs.length :=
  foldl_addAt_length _ _ _ _

theorem getD_faceLoop (pa : List Nat) (g : Nat → ℚ) (xs : List ℚ) (c : Nat)
    (hc : c < xs.length) :
    (faceLoop pa g xs).getD c 0 = xs.getD c 0 + faceSum pa g c :=
  getD_foldl_addAt _ _ _ _ _ hc

theorem faceSum_neg (pa : List Nat) (g : Nat → ℚ) (c : Nat) :
    faceSum pa (fun face => -g face) c = -faceSum pa g c := by
  unfold faceSum
  induction (List.range pa.length).filter (fun face => pa.getD face 0 = c) with
  | nil => simp
  | cons x xs ih => simp [ih]; ring

theorem sumMagOffDiag_length (faces : List lduFace) (xs : List ℚ) :
    (sumMagOffDiag faces xs).length = xs.length := by
  unfold sumMagOffDiag
  induction faces generalizing xs with
  | nil => rfl
  | cons f fs ih => simp [List.foldl_cons, ih, addAt_length]

theorem getD_sumMagOffDiag (faces : List lduFace) (xs : List ℚ) (c : Nat)
    (hc : c < xs.length) :
    (sumMagOffDiag faces xs).getD c 0 = xs.getD c 0 + interiorSumMag faces c := by
  unfold sumMagOffDiag interiorSumMag
  induction faces generalizing xs with
  | nil => simp
  | cons f fs ih =>
    rw [List.foldl_cons, ih _ (by simp [addAt_length]; exact hc),
      getD_addAt _ _ _ _ (by simp [addAt_length]; exact hc), getD_addAt _ _ _ _ hc]
    by_cases h1 : f.u = c <;> by_cases h2 : f.l = c <;> simp [List.filter_cons, h1, h2] <;> ring

/-! ## The stages of the routine in closed form -/

theorem addPatch_length (p : fvPatch) (st : List ℚ × List ℚ) :
    (addPatch p st).1.length = st.1.length ∧ (addPatch p st).2.length = st.2.length := by
  unfold addPatch
  split
  · split <;> simp [faceLoop_length]
  · simp

theorem addedCoeff_coupled (p : fvPatch) (h : p.coupled = true) :
    addedCoeff p = fun face => component (p.internalCoeffs.getD face []) 0 := by
  funext face; simp [addedCoeff, h]

theorem addedCoeff_noncoupled (p : fvPatch) (h : ¬p.coupled = true) :
    addedCoeff p = fun face => cmptMax (cmptMag (p.internalCoeffs.getD face [])) := by
  funext face; simp [addedCoeff, h]

theorem removedCoeff_coupled (p : fvPatch) (h : p.coupled = true) :
    removedCoeff p = fun face => component (p.internalCoeffs.getD face []) 0 := by
  funext face; simp [removedCoeff, h]

theorem removedCoeff_noncoupled (p : fvPatch) (h : ¬p.coupled = true) :
    removedCoeff p = fun face => cmptMin (p.internalCoeffs.getD face []) := by
  funext face; simp [removedCoeff, h]

theorem offCoeff_coupled (p : fvPatch) (h : p.coupled = true) :
    offCoeff p = fun face => mag (component (p.boundaryCoeffs.getD face []) 0) := by
  funext face; simp [offCoeff, h]

theorem offCoeff_noncoupled (p : fvPatch) (h : ¬p.coupled = true) :
    offCoeff p = fun _ => 0 := by
  funext face; simp [offCoeff, h]

theorem faceSum_zero (pa : List Nat) (c : Nat) : faceSum pa (fun _ => 0) c = 0 := by
  simp [faceSum]

theorem addPatch_getD (p : fvPatch) (st : List ℚ × List ℚ) (c : Nat)
    (h1 : c < st.1.length) (h2 : c < st.2.length) :
    (addPatch p st).1.getD c 0
        = st.1.getD c 0 + (if p.size ≠ 0 then faceSum p.patchAddr (addedCoeff p) c else 0)
    ∧ (addPatch p st).2.getD c 0
        = st.2.getD c 0 + (if p.size ≠ 0 then faceSum p.patchAddr (offCoeff p) c else 0) := by
  unfold addPatch
  by_cases hs : p.size ≠ 0
  · rw [if_pos hs, if_pos hs, if_pos hs]
    by_cases hcp : p.coupled = true
    · rw [if_pos hcp, addedCoeff_coupled p hcp, offCoeff_coupled p hcp]
      exact ⟨getD_faceLoop _ _ _ _ h1, getD_faceLoop _ _ _ _ h2⟩
    · rw [if_neg hcp, addedCoeff_noncoupled p hcp, offCoeff_noncoupled p hcp, faceSum_zero]
      exact ⟨getD_faceLoop _ _ _ _ h1, (add_zero _).symm⟩
  · rw [if_neg hs, if_neg hs, if_neg hs]
    simp

theorem foldl_addPatch_length (ps : List fvPatch) (st : List ℚ × List ℚ) :
    (ps.foldl (fun st p => addPatch p st) st).1.length = st.1.length
    ∧ (ps.foldl (fun st p => addPatch p st) st).2.length = st.2.length := by
  induction ps generalizing st with
  | nil => simp
  | cons p ps ih =>
    rw [List.foldl_cons]
    exact ⟨(ih _).1.trans (addPatch_length p st).1, (ih _).2.trans (addPatch_length p st).2⟩

theorem foldl_addPatch_getD (ps : List fvPatch) (st : List ℚ × List ℚ) (c : Nat)
    (h1 : c < st.1.length) (h2 : c < st.2.length) :
    (ps.foldl (fun st p => addPatch p st) st).1.getD c 0
        = st.1.getD c 0 + boundarySum ps addedCoeff c
    ∧ (ps.foldl (fun st p => addPatch p st) st).2.getD c 0
        = st.2.getD c 0 + boundarySum ps offCoeff c := by
  induction ps generalizing st with
  | nil => simp [boundarySum]
  | cons p ps ih =>
    rw [List.foldl_cons]
    have hl := addPatch_length p st
    have hg := addPatch_getD p st c h1 h2
    have := ih (addPatch p st) (by rw [hl.1]; exact h1) (by rw [hl.2]; exact h2)
    rw [this.1, this.2, hg.1, hg.2]
    simp only [boundarySum, List.map_cons, List.sum_cons]
    constructor <;> ring

theorem aggregate_length (m : fvMatrix) :
    (aggregate m).1.length = m.diag.length ∧ (aggregate m).2.length = m.diag.length := by
  unfold aggregate
  have h := foldl_addPatch_length m.patches
    (m.diag, sumMagOffDiag m.interior (List.replicate m.diag.length 0))
  simpa [sumMagOffDiag_length] using h

theorem aggregate_getD (m : fvMatrix) (c : Nat) (hc : c < m.diag.length) :
    (aggregate m).1.getD c 0 = m.diag.getD c 0 + boundaryAdded m c
    ∧ (aggregate m).2.getD c 0 = sumOffTotal m c := by
  unfold aggregate
  have h := foldl_addPatch_getD m.patches
    (m.diag, sumMagOffDiag m.interior (List.replicate m.diag.length 0)) c hc
    (by simp [sumMagOffDiag_length]; exact hc)
  refine ⟨h.1, ?_⟩
  rw [h.2]
  simp only [sumOffTotal]
  rw [getD_sumMagOffDiag _ _ _ (by simpa using hc)]
  simp [List.getD_eq_getElem _ _ (show c < (List.replicate m.diag.length (0:ℚ)).length by simpa using hc)]

theorem getD_zipWith {α β γ : Type} (f : α → β → γ) (xs : List α) (ys : List β) (c : Nat)
    (a : α) (b : β) (d : γ) (hx : c < xs.length) (hy : c < ys.length) :
    (List.zipWith f xs ys).getD c d = f (xs.getD c a) (ys.getD c b) := by
  rw [List.getD_eq_getElem _ _ (by simp; exact ⟨hx, hy⟩), List.getD_eq_getElem _ _ hx,
    List.getD_eq_getElem _ _ hy]
  simp

theorem getD_map {α β : Type} (f : α → β) (xs : List α) (c : Nat) (a : α) (d : β)
    (hx : c < xs.length) : (xs.map f).getD c d = f (xs.getD c a) := by
  rw [List.getD_eq_getElem _ _ (by simpa using hx), List.getD_eq_getElem _ _ hx]
  simp

theorem relaxedDiag_length (alpha : ℚ) (m : fvMatrix) :
    (relaxedDiag alpha m).length = m.diag.length := by
  simp [relaxedDiag, scaleDiag, dominant, aggregate_length]

theorem relaxedDiag_getD (alpha : ℚ) (m : fvMatrix) (c : Nat) (hc : c < m.diag.length) :
    (relaxedDiag alpha m).getD c 0
      = max |m.diag.getD c 0 + boundaryAdded m c| (sumOffTotal m c) / alpha := by
  have hl := aggregate_length m
  have hg := aggregate_getD m c hc
  unfold relaxedDiag scaleDiag dominant
  rw [getD_map _ _ c 0 0 (by simp [hl]; exact hc),
    getD_zipWith _ _ _ c 0 0 0 (by rw [hl.1]; exact hc) (by rw [hl.2]; exact hc), hg.1, hg.2]
  rfl

theorem removePatch_length (p : fvPatch) (D : List ℚ) :
    (removePatch p D).length = D.length := by
  unfold removePatch
  split
  · split <;> simp [faceLoop_length]
  · rfl

theorem removePatch_getD (p : fvPatch) (D : List ℚ) (c : Nat) (hc : c < D.length) :
    (removePatch p D).getD c 0
      = D.getD c 0 - (if p.size ≠ 0 then faceSum p.patchAddr (removedCoeff p) c else 0) := by
  unfold removePatch
  by_cases hs : p.size ≠ 0
  · rw [if_pos hs, if_pos hs]
    by_cases hcp : p.coupled = true
    · rw [if_pos hcp, removedCoeff_coupled p hcp, getD_faceLoop _ _ _ _ hc, faceSum_neg]
      ring
    · rw [if_neg hcp, removedCoeff_noncoupled p hcp, getD_faceLoop _ _ _ _ hc, faceSum_neg]
      ring
  · rw [if_neg hs, if_neg hs]
    simp

theorem foldl_removePatch_length (ps : List fvPatch) (D : List ℚ) :
    (ps.foldl (fun D p => removePatch p D) D).length = D.length := by
  induction ps generalizing D with
  | nil => rfl
  | cons p ps ih => rw [List.foldl_cons, ih, removePatch_length]

theorem foldl_removePatch_getD (ps : List fvPatch) (D : List ℚ) (c : Nat) (hc : c < D.length) :
    (ps.foldl (fun D p => removePatch p D) D).getD c 0
      = D.getD c 0 - boundarySum ps removedCoeff c := by
  induction ps generalizing D with
  | nil => simp [boundarySum]
  | cons p ps ih =>
    rw [List.foldl_cons, ih _ (by rw [removePatch_length]; exact hc), removePatch_getD p D c hc]
    simp only [boundarySum, List.map_cons, List.sum_cons]
    ring

theorem finalDiag_length (alpha : ℚ) (m : fvMatrix) :
    (finalDiag alpha m).length = m.diag.length := by
  unfold finalDiag
  rw [foldl_removePatch_length, relaxedDiag_length]

theorem finalDiag_getD (alpha : ℚ) (m : fvMatrix) (c : Nat) (hc : c < m.diag.length) :
    (finalDiag alpha m).getD c 0
      = max |m.diag.getD c 0 + boundaryAdded m c| (sumOffTotal m c) / alpha
        - boundaryRemoved m c := by
  unfold finalDiag
  rw [foldl_removePatch_getD _ _ _ (by rw [relaxedDiag_length]; exact hc),
    relaxedDiag_getD alpha m c hc]
  rfl

theorem relax2_pos (debug : Bool) (alpha : ℚ) (m : fvMatrix) (ha : 0 < alpha) :
    relax2 debug alpha m
      = ({ m with diag := finalDiag alpha m,
                  source := updateSource m.source (finalDiag alpha m) m.diag m.psi },
         if debug then some (nonDominance (aggregate m).1 (aggregate m).2) else none) := by
  unfold relax2
  rw [if_neg (not_le.mpr ha)]
  rfl

theorem relax2_nonpos (debug : Bool) (alpha : ℚ) (m : fvMatrix) (ha : alpha ≤ 0) :
    relax2 debug alpha m = (m, none) := by
  unfold relax2
  rw [if_pos ha]

/-! ## Properties of `relax2` -/

/-- C1: for every `alpha > 0` and every cell `c`, `relax2` keeps the number of
cells and sets the diagonal to
`max(|D0[c] + A[c]|, sumOff[c]) / alpha - R[c]`, where `A`, `sumOff` and `R`
are the sums over the faces of non-empty patches addressed to `c` described by
`boundaryAdded`, `sumOffTotal` and `boundaryRemoved`. -/
theorem relax2_diag_closed_form (debug : Bool) (alpha : ℚ) (m : fvMatrix) (c : Nat)
    (ha : 0 < alpha) (hc : c < m.diag.length) :
    (relax2 debug alpha m).1.diag.length = m.diag.length
    ∧ (relax2 debug alpha m).1.diag.getD c 0
        = max |m.diag.getD c 0 + boundaryAdded m c| (sumOffTotal m c) / alpha
          - boundaryRemoved m c := by
  rw [relax2_pos debug alpha m ha]
  exact ⟨finalDiag_length alpha m, finalDiag_getD alpha m c hc⟩

/-- Witness of C1 on the two-cell system with `alpha = 1/2`: cell 1 has
`D0 = -2`, `A = 7`, `sumOff = 2`, `R = 4` and ends with the diagonal `6`. -/
theorem relax2_diag_closed_form_witness :
    (0 : ℚ) < 1 / 2 ∧ 1 < twoCell.diag.length
    ∧ boundaryAdded twoCell 1 = 7 ∧ sumOffTotal twoCell 1 = 2 ∧ boundaryRemoved twoCell 1 = 4
    ∧ (relax2 true (1 / 2) twoCell).1.diag.getD 1 0 = 6 := by
  have hA : boundaryAdded twoCell 1 = 7 := by
    norm_num [boundaryAdded, boundarySum, faceSum, addedCoeff, twoCell, component, cmptMax,
      cmptMag, mag, List.range, List.range.loop, List.filter]
  have hS : sumOffTotal twoCell 1 = 2 := by
    norm_num [sumOffTotal, interiorSumMag, boundarySum, faceSum, offCoeff, twoCell, component,
      mag, List.range, List.range.loop, List.filter]
  have hR : boundaryRemoved twoCell 1 = 4 := by
    norm_num [boundaryRemoved, boundarySum, faceSum, removedCoeff, twoCell, component, cmptMin,
      List.range, List.range.loop, List.filter]
  refine ⟨by norm_num, by simp [twoCell], hA, hS, hR, ?_⟩
  rw [(relax2_diag_closed_form true (1 / 2) twoCell 1 (by norm_num) (by simp [twoCell])).2,
    hA, hS, hR]
  norm_num [twoCell]

theorem component_vscale (s : ℚ) (v : Val) (i : Nat) :
    component (vscale s v) i = s * component v i := by
  unfold component vscale
  by_cases h : i < v.length
  · rw [getD_map _ _ i 0 0 h]
  · rw [List.getD_eq_default _ _ (by simpa using h), List.getD_eq_default _ _ (by simpa using h)]
    simp

theorem component_vadd (a b : Val) (i : Nat) (h : a.length = b.length) :
    component (vadd a b) i = component a i + component b i := by
  unfold component vadd
  by_cases hi : i < a.length
  · rw [getD_zipWith _ _ _ i 0 0 0 hi (h ▸ hi)]
  · rw [List.getD_eq_default _ _ (by simp; omega), List.getD_eq_default _ _ (by omega),
      List.getD_eq_default _ _ (by omega)]
    simp

theorem vscale_length (s : ℚ) (v : Val) : (vscale s v).length = v.length := by
  simp [vscale]

theorem updateSource_getD (S : List Val) (D D0 : List ℚ) (psi : List Val) (c : Nat)
    (hS : c < S.length) (hD : c < D.length) (hD0 : c < D0.length) (hpsi : c < psi.length) :
    (updateSource S D D0 psi).getD c []
      = vadd (S.getD c []) (vscale (D.getD c 0 - D0.getD c 0) (psi.getD c [])) := by
  unfold updateSource
  rw [getD_zipWith _ _ _ c [] [] [] hS (by simp; omega),
    getD_zipWith _ _ _ c 0 [] [] (by simp; omega) hpsi,
    getD_zipWith _ _ _ c 0 0 0 hD hD0]

/-- C2: solution preservation. For every `alpha` and every cell `c` of a system
whose arrays have consistent sizes, each component `i` of the source changes by
`(D_final[c] - D0[c]) * x[c]`, where `x` is the field value before the call;
equivalently the residual `D*x - S` at `x` is the same before and after. -/
theorem relax2_solution_preserved (debug : Bool) (alpha : ℚ) (m : fvMatrix) (c i : Nat)
    (hc : c < m.diag.length) (hS : c < m.source.length) (hpsi : c < m.psi.length)
    (hn : (m.source.getD c []).length = (m.psi.getD c []).length) :
    component ((relax2 debug alpha m).1.source.getD c []) i - component (m.source.getD c []) i
        = ((relax2 debug alpha m).1.diag.getD c 0 - m.diag.getD c 0)
          * component (m.psi.getD c []) i
    ∧ (relax2 debug alpha m).1.diag.getD c 0 * component (m.psi.getD c []) i
          - component ((relax2 debug alpha m).1.source.getD c []) i
        = m.diag.getD c 0 * component (m.psi.getD c []) i - component (m.source.getD c []) i := by
  by_cases ha : alpha ≤ 0
  · rw [relax2_nonpos debug alpha m ha]
    constructor <;> ring
  · rw [relax2_pos debug alpha m (not_le.mp ha)]
    simp only
    rw [updateSource_getD _ _ _ _ c hS (by rw [finalDiag_length]; exact hc) hc hpsi,
      component_vadd _ _ i (by rw [vscale_length]; exact hn), component_vscale]
    constructor <;> ring

/-- Witness of C2 on the two-cell system: at cell 1 the diagonal goes from `-2`
to `6` and component 1 of the source from `1` to `1 + 8 * 4 = 33`. -/
theorem relax2_solution_preserved_witness :
    1 < twoCell.diag.length ∧ 1 < twoCell.source.length ∧ 1 < twoCell.psi.length
    ∧ (twoCell.source.getD 1 []).length = (twoCell.psi.getD 1 []).length
    ∧ component ((relax2 false (1 / 2) twoCell).1.source.getD 1 []) 1
        - component (twoCell.source.getD 1 []) 1
      = ((relax2 false (1 / 2) twoCell).1.diag.getD 1 0 - twoCell.diag.getD 1 0)
          * component (twoCell.psi.getD 1 []) 1 :=
  ⟨by simp [twoCell], by simp [twoCell], by simp [twoCell], by simp [twoCell],
    (relax2_solution_preserved false (1 / 2) twoCell 1 1 (by simp [twoCell]) (by simp [twoCell])
      (by simp [twoCell]) (by simp [twoCell])).1⟩

/-- C3: for every `alpha <= 0` the call returns the state it was given, with the
same diagonal, source and every other part, and reports nothing. -/
theorem relax2_noop (debug : Bool) (alpha : ℚ) (m : fvMatrix) (ha : alpha ≤ 0) :
    (relax2 debug alpha m).1 = m
    ∧ (relax2 debug alpha m).1.diag = m.diag
    ∧ (relax2 debug alpha m).1.source = m.source
    ∧ (relax2 debug alpha m).2 = none := by
  rw [relax2_nonpos debug alpha m ha]
  exact ⟨rfl, rfl, rfl, rfl⟩

/-- Witness of C3: `alpha = -1` on the two-cell system. -/
theorem relax2_noop_witness :
    (-1 : ℚ) ≤ 0 ∧ (relax2 true (-1) twoCell).1 = twoCell :=
  ⟨by norm_num, (relax2_noop true (-1) twoCell (by norm_num)).1⟩

/-- C7: the end-to-end scenario with `alpha = 0.5`. The aggregated diagonal is
`5` with `sumOff = 0`, the scaled diagonal is `10`, and the call ends with
`D = 6` and `S = 10`. -/
theorem relax2_scenario (debug : Bool) :
    aggregate scenario = ([5], [0])
    ∧ relaxedDiag (1 / 2) scenario = [10]
    ∧ (relax2 debug (1 / 2) scenario).1.diag = [6]
    ∧ (relax2 debug (1 / 2) scenario).1.source = [[10]] := by
  have h1 : aggregate scenario = ([5], [0]) := by
    norm_num [aggregate, scenario, addPatch, faceLoop, sumMagOffDiag, addAt, cmptMax, cmptMag,
      mag, List.range, List.range.loop]
  have h2 : relaxedDiag (1 / 2) scenario = [10] := by
    rw [relaxedDiag, h1]
    norm_num [dominant, scaleDiag, mag]
  have h3 : finalDiag (1 / 2) scenario = [6] := by
    rw [finalDiag, h2]
    norm_num [scenario, removePatch, faceLoop, addAt, cmptMin, List.range, List.range.loop]
  rw [relax2_pos debug (1 / 2) scenario (by norm_num), h3]
  refine ⟨h1, h2, rfl, ?_⟩
  norm_num [updateSource, scenario, vadd, vscale]

/-- C9: the diagonal, the source and every other part of the state produced
with the diagnostics enabled equal those produced with the diagnostics
disabled. -/
theorem relax2_debug_irrelevant (alpha : ℚ) (m : fvMatrix) :
    (relax2 true alpha m).1 = (relax2 false alpha m).1
    ∧ (relax2 true alpha m).1.diag = (relax2 false alpha m).1.diag
    ∧ (relax2 true alpha m).1.source = (relax2 false alpha m).1.source := by
  have h : (relax2 true alpha m).1 = (relax2 false alpha m).1 := by
    by_cases ha : alpha ≤ 0
    · rw [relax2_nonpos true alpha m ha, relax2_nonpos false alpha m ha]
    · rw [relax2_pos true alpha m (not_le.mp ha), relax2_pos false alpha m (not_le.mp ha)]
  exact ⟨h, by rw [h], by rw [h]⟩

theorem mem_of_getD_eq (pa : List Nat) (face c : Nat) (h : face < pa.length)
    (hc : pa.getD face 0 = c) : c ∈ pa := by
  rw [List.getD_eq_getElem _ _ h] at hc
  rw [← hc]
  exact List.getElem_mem h

theorem faceSum_congr (pa : List Nat) (g g' : Nat → ℚ) (c : Nat)
    (h : ∀ face, face < pa.length → pa.getD face 0 = c → g face = g' face) :
    faceSum pa g c = faceSum pa g' c := by
  unfold faceSum
  congr 1
  apply List.map_congr_left
  intro face hface
  rw [List.mem_filter, List.mem_range] at hface
  exact h face hface.1 (by simpa using hface.2)

theorem boundarySum_congr (ps : List fvPatch) (g g' : fvPatch → Nat → ℚ) (c : Nat)
    (h : ∀ p ∈ ps, c ∈ p.patchAddr → ∀ face, g p face = g' p face) :
    boundarySum ps g c = boundarySum ps g' c := by
  unfold boundarySum
  congr 1
  apply List.map_congr_left
  intro p hp
  by_cases hs : p.size ≠ 0
  · rw [if_pos hs, if_pos hs]
    exact faceSum_congr _ _ _ _
      (fun face hf hfc => h p hp (mem_of_getD_eq _ _ _ hf hfc) face)
  · rw [if_neg hs, if_neg hs]

theorem faceSum_sub (pa : List Nat) (g g' : Nat → ℚ) (c : Nat) :
    faceSum pa (fun face => g face - g' face) c = faceSum pa g c - faceSum pa g' c := by
  unfold faceSum
  induction (List.range pa.length).filter (fun face => pa.getD face 0 = c) with
  | nil => simp
  | cons x xs ih => simp only [List.map_cons, List.sum_cons, ih]; ring

theorem boundarySum_sub (ps : List fvPatch) (g g' : fvPatch → Nat → ℚ) (c : Nat) :
    boundarySum ps (fun p face => g p face - g' p face) c
      = boundarySum ps g c - boundarySum ps g' c := by
  unfold boundarySum
  induction ps with
  | nil => simp
  | cons p ps ih =>
    simp only [List.map_cons, List.sum_cons, ih]
    by_cases hs : p.size ≠ 0
    · rw [if_pos hs, if_pos hs, if_pos hs, faceSum_sub]; ring
    · rw [if_neg hs, if_neg hs, if_neg hs]; ring

theorem relaxed_dominates (alpha : ℚ) (m : fvMatrix) (c : Nat) (ha : 0 < alpha) :
    sumOffTotal m c
      ≤ |max |m.diag.getD c 0 + boundaryAdded m c| (sumOffTotal m c) / alpha| * alpha := by
  have hM : 0 ≤ max |m.diag.getD c 0 + boundaryAdded m c| (sumOffTotal m c) :=
    le_trans (abs_nonneg _) (le_max_left _ _)
  rw [abs_of_nonneg (div_nonneg hM ha.le), div_mul_cancel₀ _ ha.ne']
  exact le_max_right _ _

/-- C4, the claim fails as stated: on the one-cell system with a coupled face
(`internalCoeffs = 5`, `boundaryCoeffs = 5`, `D0 = 0`) and `alpha = 1` the
accumulated `sumOff` is `5` while the final diagonal is `0`. -/
theorem dominance_after_reversal_fails :
    (0 : ℚ) < 1 ∧ 0 < coupledCell.diag.length
    ∧ aggregate coupledCell = ([5], [5])
    ∧ sumOffTotal coupledCell 0 = 5
    ∧ (relax2 false 1 coupledCell).1.diag = [0]
    ∧ ¬ (sumOffTotal coupledCell 0 ≤ |(relax2 false 1 coupledCell).1.diag.getD 0 0| * 1) := by
  have h1 : aggregate coupledCell = ([5], [5]) := by
    norm_num [aggregate, coupledCell, addPatch, faceLoop, sumMagOffDiag, addAt, component,
      mag, List.range, List.range.loop]
  have h2 : sumOffTotal coupledCell 0 = 5 := by
    norm_num [sumOffTotal, interiorSumMag, boundarySum, faceSum, offCoeff, coupledCell,
      component, mag, List.range, List.range.loop, List.filter]
  have h3 : finalDiag 1 coupledCell = [0] := by
    rw [finalDiag, relaxedDiag, h1]
    norm_num [dominant, scaleDiag, mag, coupledCell, removePatch, faceLoop, addAt, component,
      List.range, List.range.loop]
  have h4 : (relax2 false 1 coupledCell).1.diag = [0] := by
    rw [relax2_pos false 1 coupledCell (by norm_num)]
    exact h3
  refine ⟨by norm_num, by simp [coupledCell], h1, h2, h4, ?_⟩
  rw [h2, h4]
  norm_num

/-- C4 as amended: for every `alpha > 0` and every cell `c`, the diagonal before
the boundary contributions are removed again, which is `D_final[c] + R[c]`,
satisfies `|D_final[c] + R[c]| * alpha >= sumOff[c]`, where `sumOff[c]` is the
value the routine accumulated for the cell. -/
theorem dominance_before_reversal (debug : Bool) (alpha : ℚ) (m : fvMatrix) (c : Nat)
    (ha : 0 < alpha) (hc : c < m.diag.length) :
    (aggregate m).2.getD c 0 = sumOffTotal m c
    ∧ (relaxedDiag alpha m).getD c 0
        = (relax2 debug alpha m).1.diag.getD c 0 + boundaryRemoved m c
    ∧ sumOffTotal m c
        ≤ |(relax2 debug alpha m).1.diag.getD c 0 + boundaryRemoved m c| * alpha := by
  rw [relax2_pos debug alpha m ha]
  simp only
  rw [finalDiag_getD alpha m c hc, relaxedDiag_getD alpha m c hc, sub_add_cancel]
  exact ⟨(aggregate_getD m c hc).2, rfl, relaxed_dominates alpha m c ha⟩

/-- Witness of the amended C4 on the coupled one-cell system with `alpha = 1`. -/
theorem dominance_before_reversal_witness :
    (0 : ℚ) < 1 ∧ 0 < coupledCell.diag.length
    ∧ sumOffTotal coupledCell 0
        ≤ |(relax2 true 1 coupledCell).1.diag.getD 0 0 + boundaryRemoved coupledCell 0| * 1 :=
  ⟨by norm_num, by simp [coupledCell],
    (dominance_before_reversal true 1 coupledCell 0 (by norm_num) (by simp [coupledCell])).2.2⟩

theorem list_eq_of_getD (xs ys : List ℚ) (hl : xs.length = ys.length)
    (h : ∀ c, c < xs.length → xs.getD c 0 = ys.getD c 0) : xs = ys := by
  apply List.ext_getElem hl
  intro c h1 h2
  have := h c h1
  rwa [List.getD_eq_getElem _ _ h1, List.getD_eq_getElem _ _ h2] at this

theorem removePatch_addPatch_coupled (p : fvPatch) (st : List ℚ × List ℚ)
    (hcp : p.coupled = true) : removePatch p (addPatch p st).1 = st.1 := by
  apply list_eq_of_getD
  · rw [removePatch_length, (addPatch_length p st).1]
  · intro c hc
    rw [removePatch_length, (addPatch_length p st).1] at hc
    rw [removePatch_getD _ _ _ (by rw [(addPatch_length p st).1]; exact hc)]
    unfold addPatch
    by_cases hs : p.size ≠ 0
    · rw [if_pos hs, if_pos hs, if_pos hcp, removedCoeff_coupled p hcp]
      simp only
      rw [getD_faceLoop _ _ _ _ hc]
      ring
    · rw [if_neg hs, if_neg hs]
      ring

theorem vadd_vscale_zero (a v : Val) (h : a.length ≤ v.length) : vadd a (vscale 0 v) = a := by
  unfold vadd vscale
  induction a generalizing v with
  | nil => simp
  | cons x xs ih =>
    cases v with
    | nil => simp at h
    | cons y ys =>
      have h' : xs.length ≤ ys.length := by simpa using h
      simp only [List.map_cons, List.zipWith_cons_cons, ih ys h']
      simp

theorem finalDiag_of_dominant (m : fvMatrix) (c : Nat) (hc : c < m.diag.length)
    (h0 : 0 ≤ m.diag.getD c 0 + boundaryAdded m c)
    (h1 : sumOffTotal m c ≤ m.diag.getD c 0 + boundaryAdded m c) :
    (finalDiag 1 m).getD c 0 = m.diag.getD c 0 + boundaryAdded m c - boundaryRemoved m c := by
  rw [finalDiag_getD 1 m c hc, abs_of_nonneg h0, max_eq_left h1, div_one]

/-- C5: boundary asymmetry. For `alpha = 1` and a cell `c` whose boundary faces
all belong to non-coupled patches and whose aggregated diagonal
`D0[c] + sum_f cmptMax(cmptMag(internalCoeffs[f]))` is non-negative and at
least `sumOff[c]`, the net change of the diagonal is
`sum_f (cmptMax(cmptMag(internalCoeffs[f])) - cmptMin(internalCoeffs[f]))`.
For the components `[2, 5]` the retained amount is `3`, not the `0` that
subtracting the added maximum would leave. -/
theorem noncoupled_asymmetry (debug : Bool) (m : fvMatrix) (c : Nat)
    (hc : c < m.diag.length)
    (hnc : ∀ p ∈ m.patches, c ∈ p.patchAddr → p.coupled = false)
    (h0 : 0 ≤ m.diag.getD c 0
      + boundarySum m.patches (fun p face => cmptMax (cmptMag (p.internalCoeffs.getD face []))) c)
    (h1 : sumOffTotal m c ≤ m.diag.getD c 0
      + boundarySum m.patches (fun p face => cmptMax (cmptMag (p.internalCoeffs.getD face []))) c) :
    (relax2 debug 1 m).1.diag.getD c 0 - m.diag.getD c 0
        = boundarySum m.patches (fun p face =>
            cmptMax (cmptMag (p.internalCoeffs.getD face []))
              - cmptMin (p.internalCoeffs.getD face [])) c
    ∧ cmptMax (cmptMag [2, 5]) - cmptMin [2, 5] = 3
    ∧ cmptMax (cmptMag [2, 5]) - cmptMax (cmptMag [2, 5]) = 0 := by
  have hA : boundaryAdded m c
      = boundarySum m.patches
          (fun p face => cmptMax (cmptMag (p.internalCoeffs.getD face []))) c := by
    unfold boundaryAdded
    apply boundarySum_congr
    intro p hp hcp face
    simp [addedCoeff, hnc p hp hcp]
  have hR : boundaryRemoved m c
      = boundarySum m.patches (fun p face => cmptMin (p.internalCoeffs.getD face [])) c := by
    unfold boundaryRemoved
    apply boundarySum_congr
    intro p hp hcp face
    simp [removedCoeff, hnc p hp hcp]
  rw [← hA] at h0 h1
  refine ⟨?_, ?_, ?_⟩
  · rw [relax2_pos debug 1 m (by norm_num)]
    simp only
    rw [finalDiag_of_dominant m c hc h0 h1, boundarySum_sub, hA, hR]
    ring
  · norm_num [cmptMax, cmptMag, cmptMin, mag]
  · norm_num

/-- Witness of C5: the one-cell system with a single non-coupled face of
components `[2, 5]` and `D0 = 1`; the diagonal grows by `3`. -/
theorem noncoupled_asymmetry_witness :
    (relax2 false 1 asymmetric).1.diag.getD 0 0 - asymmetric.diag.getD 0 0 = 3 := by
  have h := (noncoupled_asymmetry false asymmetric 0 (by simp [asymmetric])
    (by simp [asymmetric])
    (by norm_num [asymmetric, boundarySum, faceSum, cmptMax, cmptMag, mag, List.range,
      List.range.loop, List.filter])
    (by norm_num [asymmetric, sumOffTotal, interiorSumMag, offCoeff, boundarySum, faceSum,
      cmptMax, cmptMag, mag, List.range, List.range.loop, List.filter])).1
  rw [h]
  norm_num [asymmetric, boundarySum, faceSum, cmptMax, cmptMag, cmptMin, mag, List.range,
    List.range.loop, List.filter]

/-- C6: coupled patch symmetry. For a coupled patch the second patch loop
subtracts what the first one added: running the body of the first loop and then
the body of the second on the same coupled patch restores the diagonal. For
`alpha = 1` and a cell `c` touched only by coupled patches whose aggregated
diagonal `D0[c] + sum_f component0(internalCoeffs[f])` is non-negative and at
least `sumOff[c]`, the diagonal and the source of the cell are unchanged. -/
theorem coupled_symmetry (debug : Bool) (m : fvMatrix) (c : Nat)
    (hc : c < m.diag.length) (hS : c < m.source.length) (hpsi : c < m.psi.length)
    (hn : (m.source.getD c []).length = (m.psi.getD c []).length)
    (hcp : ∀ p ∈ m.patches, c ∈ p.patchAddr → p.coupled = true)
    (h0 : 0 ≤ m.diag.getD c 0
      + boundarySum m.patches (fun p face => component (p.internalCoeffs.getD face []) 0) c)
    (h1 : sumOffTotal m c ≤ m.diag.getD c 0
      + boundarySum m.patches (fun p face => component (p.internalCoeffs.getD face []) 0) c) :
    (∀ (p : fvPatch) (st : List ℚ × List ℚ), p.coupled = true →
        removePatch p (addPatch p st).1 = st.1)
    ∧ (relax2 debug 1 m).1.diag.getD c 0 = m.diag.getD c 0
    ∧ (relax2 debug 1 m).1.source.getD c [] = m.source.getD c [] := by
  have hA : boundaryAdded m c
      = boundarySum m.patches (fun p face => component (p.internalCoeffs.getD face []) 0) c := by
    unfold boundaryAdded
    apply boundarySum_congr
    intro p hp hpc face
    simp [addedCoeff, hcp p hp hpc]
  have hR : boundaryRemoved m c
      = boundarySum m.patches (fun p face => component (p.internalCoeffs.getD face []) 0) c := by
    unfold boundaryRemoved
    apply boundarySum_congr
    intro p hp hpc face
    simp [removedCoeff, hcp p hp hpc]
  rw [← hA] at h0 h1
  have hD : (finalDiag 1 m).getD c 0 = m.diag.getD c 0 := by
    rw [finalDiag_of_dominant m c hc h0 h1, hA, hR]
    ring
  refine ⟨?_, ?_, ?_⟩
  · exact removePatch_addPatch_coupled
  · rw [relax2_pos debug 1 m (by norm_num)]
    exact hD
  · rw [relax2_pos debug 1 m (by norm_num)]
    simp only
    rw [updateSource_getD _ _ _ _ c hS (by rw [finalDiag_length]; exact hc) hc hpsi, hD,
      sub_self, vadd_vscale_zero _ _ hn.le]

/-- Witness of C6: the one-cell system with one coupled face, whose aggregated
diagonal `0 + 5` equals `sumOff = 5`; the diagonal stays `0`. -/
theorem coupled_symmetry_witness :
    (relax2 false 1 coupledCell).1.diag.getD 0 0 = coupledCell.diag.getD 0 0
    ∧ (relax2 false 1 coupledCell).1.source.getD 0 [] = coupledCell.source.getD 0 [] :=
  (coupled_symmetry false coupledCell 0 (by simp [coupledCell]) (by simp [coupledCell])
    (by simp [coupledCell]) (by simp [coupledCell])
    (by simp [coupledCell])
    (by norm_num [coupledCell, boundarySum, faceSum, component, List.range, List.range.loop,
      List.filter])
    (by norm_num [coupledCell, sumOffTotal, interiorSumMag, offCoeff, boundarySum, faceSum,
      component, mag, List.range, List.range.loop, List.filter])).2

theorem vadd_vadd_vscale_zero (s p : Val) (x : ℚ) :
    vadd (vadd s (vscale x p)) (vscale 0 p) = vadd s (vscale x p) := by
  apply vadd_vscale_zero
  simp [vadd, vscale]

theorem updateSource_again (S psi : List Val) (X Y : List ℚ) (h : X.length ≤ Y.length) :
    List.zipWith vadd (List.zipWith vadd S (List.zipWith vscale X psi))
        (List.zipWith vscale (List.zipWith (fun d d0 => d - d0) Y Y) psi)
      = List.zipWith vadd S (List.zipWith vscale X psi) := by
  induction S generalizing X Y psi with
  | nil => simp
  | cons s S ih =>
    cases X with
    | nil => simp
    | cons x X =>
      cases psi with
      | nil => simp
      | cons p psi =>
        cases Y with
        | nil => simp at h
        | cons y Y =>
          have h' : X.length ≤ Y.length := by simpa using h
          simp only [List.zipWith_cons_cons, ih psi X Y h', sub_self, vadd_vadd_vscale_zero]

theorem finalDiag_idem (m : fvMatrix) (S : List Val)
    (h : ∀ c, c < m.diag.length → boundaryAdded m c = boundaryRemoved m c) :
    finalDiag 1 { m with diag := finalDiag 1 m, source := S } = finalDiag 1 m := by
  apply list_eq_of_getD
  · rw [finalDiag_length, finalDiag_length]
  · intro c hc
    rw [finalDiag_length] at hc
    have hc' : c < m.diag.length := by simpa [finalDiag_length] using hc
    rw [finalDiag_getD 1 _ c hc]
    simp only [boundaryAdded, boundaryRemoved, sumOffTotal]
    rw [finalDiag_getD 1 m c hc']
    have hAR := h c hc'
    simp only [boundaryAdded, boundaryRemoved] at hAR
    simp only [boundaryAdded, boundaryRemoved, sumOffTotal, div_one]
    rw [← hAR, sub_add_cancel]
    have hM : 0 ≤ max |m.diag.getD c 0 + boundarySum m.patches addedCoeff c|
        (interiorSumMag m.interior c + boundarySum m.patches offCoeff c) :=
      le_trans (abs_nonneg _) (le_max_left _ _)
    rw [abs_of_nonneg hM, max_eq_left (le_max_right _ _)]

theorem foldl_min_le (xs : List ℚ) (x : ℚ) : xs.foldl min x ≤ x := by
  induction xs generalizing x with
  | nil => exact le_refl x
  | cons y ys ih => exact le_trans (ih (min x y)) (min_le_left x y)

theorem le_foldl_max (xs : List ℚ) (x : ℚ) : x ≤ xs.foldl max x := by
  induction xs generalizing x with
  | nil => exact le_refl x
  | cons y ys ih => exact le_trans (le_max_left x y) (ih (max x y))

theorem cmptMin_le_cmptMax_cmptMag (v : Val) : cmptMin v ≤ cmptMax (cmptMag v) := by
  cases v with
  | nil => exact le_refl _
  | cons x xs =>
    show xs.foldl min x ≤ (xs.map mag).foldl max (mag x)
    exact le_trans (foldl_min_le xs x) (le_trans (le_abs_self x) (le_foldl_max _ _))

theorem removedCoeff_le_addedCoeff (p : fvPatch) (face : Nat) :
    removedCoeff p face ≤ addedCoeff p face := by
  unfold removedCoeff addedCoeff
  by_cases h : p.coupled = true
  · rw [if_pos h, if_pos h]
  · rw [if_neg h, if_neg h]
    exact cmptMin_le_cmptMax_cmptMag _

theorem faceSum_mono (pa : List Nat) (g g' : Nat → ℚ) (c : Nat) (h : ∀ face, g face ≤ g' face) :
    faceSum pa g c ≤ faceSum pa g' c := by
  unfold faceSum
  induction (List.range pa.length).filter (fun face => pa.getD face 0 = c) with
  | nil => simp
  | cons x xs ih =>
    simp only [List.map_cons, List.sum_cons]
    exact add_le_add (h x) ih

theorem boundarySum_mono (ps : List fvPatch) (g g' : fvPatch → Nat → ℚ) (c : Nat)
    (h : ∀ p face, g p face ≤ g' p face) : boundarySum ps g c ≤ boundarySum ps g' c := by
  unfold boundarySum
  induction ps with
  | nil => simp
  | cons p ps ih =>
    simp only [List.map_cons, List.sum_cons]
    apply add_le_add _ ih
    by_cases hs : p.size ≠ 0
    · rw [if_pos hs, if_pos hs]
      exact faceSum_mono _ _ _ _ (h p)
    · rw [if_neg hs, if_neg hs]

theorem boundaryRemoved_le_boundaryAdded (m : fvMatrix) (c : Nat) :
    boundaryRemoved m c ≤ boundaryAdded m c :=
  boundarySum_mono _ _ _ _ removedCoeff_le_addedCoeff

theorem finalDiag_second (m : fvMatrix) (S : List Val) (c : Nat) (hc : c < m.diag.length) :
    (finalDiag 1 { m with diag := finalDiag 1 m, source := S }).getD c 0
      = (finalDiag 1 m).getD c 0 + (boundaryAdded m c - boundaryRemoved m c) := by
  have hc1 : c < (finalDiag 1 m).length := by rw [finalDiag_length]; exact hc
  rw [finalDiag_getD 1 _ c hc1]
  simp only [boundaryAdded, boundaryRemoved, sumOffTotal]
  rw [finalDiag_getD 1 m c hc]
  simp only [boundaryAdded, boundaryRemoved, sumOffTotal, div_one]
  have hAR := boundaryRemoved_le_boundaryAdded m c
  simp only [boundaryAdded, boundaryRemoved] at hAR
  have hM0 : 0 ≤ max |m.diag.getD c 0 + boundarySum m.patches addedCoeff c|
      (interiorSumMag m.interior c + boundarySum m.patches offCoeff c) :=
    le_trans (abs_nonneg _) (le_max_left _ _)
  have hMs : interiorSumMag m.interior c + boundarySum m.patches offCoeff c
      ≤ max |m.diag.getD c 0 + boundarySum m.patches addedCoeff c|
        (interiorSumMag m.interior c + boundarySum m.patches offCoeff c) := le_max_right _ _
  rw [abs_of_nonneg (by linarith), max_eq_left (by linarith)]
  ring

/-- C8, the claim fails as stated: on the one-cell system with a non-coupled
face of components `[2, 5]` and `D0 = 1`, a first call with `alpha = 1` gives
`D = 4`, `S = [3, 3]` and a second call gives `D = 7`, `S = [6, 6]`. -/
theorem relax2_twice_differs :
    (relax2 false 1 asymmetric).1.diag = [4]
    ∧ (relax2 false 1 asymmetric).1.source = [[3, 3]]
    ∧ (relax2 false 1 (relax2 false 1 asymmetric).1).1.diag = [7]
    ∧ (relax2 false 1 (relax2 false 1 asymmetric).1).1.source = [[6, 6]]
    ∧ (relax2 false 1 (relax2 false 1 asymmetric).1).1 ≠ (relax2 false 1 asymmetric).1 := by
  have h1 : (relax2 false 1 asymmetric).1
      = ⟨[4], [[3, 3]], [], [[1, 1]], [⟨1, false, [0], [[2, 5]], []⟩]⟩ := by
    rw [relax2_pos false 1 asymmetric (by norm_num)]
    norm_num [finalDiag, relaxedDiag, aggregate, asymmetric, addPatch, faceLoop, sumMagOffDiag,
      addAt, cmptMax, cmptMag, cmptMin, mag, dominant, scaleDiag, removePatch, updateSource,
      vadd, vscale, List.range, List.range.loop]
  have h2 : (relax2 false 1 (relax2 false 1 asymmetric).1).1
      = ⟨[7], [[6, 6]], [], [[1, 1]], [⟨1, false, [0], [[2, 5]], []⟩]⟩ := by
    rw [h1, relax2_pos false 1 _ (by norm_num)]
    norm_num [finalDiag, relaxedDiag, aggregate, addPatch, faceLoop, sumMagOffDiag,
      addAt, cmptMax, cmptMag, cmptMin, mag, dominant, scaleDiag, removePatch, updateSource,
      vadd, vscale, List.range, List.range.loop]
  rw [h2, h1]
  refine ⟨rfl, rfl, rfl, rfl, ?_⟩
  intro h
  have h' := congrArg fvMatrix.diag h
  norm_num at h'

/-- C8 as amended: a call with `alpha = 1` on the state produced by a call with
`alpha = 1` adds `A[c] - R[c]` to the diagonal of every cell, so it leaves the
state (diagonal and source included) unchanged exactly when, for each cell, the
boundary amount added equals the amount later subtracted, `A[c] = R[c]`, as
when every patch is coupled. -/
theorem relax2_idempotent_at_one (debug : Bool) (m : fvMatrix) :
    (relax2 debug 1 (relax2 debug 1 m).1).1 = (relax2 debug 1 m).1
      ↔ ∀ c, c < m.diag.length → boundaryAdded m c = boundaryRemoved m c := by
  rw [relax2_pos debug 1 m (by norm_num), relax2_pos debug 1 _ (by norm_num)]
  simp only
  constructor
  · intro h c hc
    have hd := congrArg (fun s : fvMatrix => s.diag.getD c 0) h
    simp only at hd
    rw [finalDiag_second m _ c hc] at hd
    linarith
  · intro h
    rw [finalDiag_idem m _ h]
    have hS : updateSource (updateSource m.source (finalDiag 1 m) m.diag m.psi) (finalDiag 1 m)
        (finalDiag 1 m) m.psi = updateSource m.source (finalDiag 1 m) m.diag m.psi := by
      unfold updateSource
      apply updateSource_again
      simp [finalDiag_length]
    rw [hS]

theorem nonDominanceLoop_fault (D sumOff : List ℚ) (cells : List Nat) (acc : NonDominance) :
    (∃ c, nonDominanceLoop D sumOff cells acc = .error (.ratio c))
      ↔ ∃ c, c ∈ cells ∧ D.getD c 0 = 0 := by
  induction cells generalizing acc with
  | nil => simp [nonDominanceLoop]
  | cons celli rest ih =>
    unfold nonDominanceLoop
    by_cases h0 : mag (D.getD celli 0) = 0
    · rw [if_pos h0]
      have hD : D.getD celli 0 = 0 := by simpa [mag] using h0
      exact ⟨fun _ => ⟨celli, List.mem_cons_self _ _, hD⟩, fun _ => ⟨celli, rfl⟩⟩
    · rw [if_neg h0]
      have hD : D.getD celli 0 ≠ 0 := by simpa [mag] using h0
      simp only []
      rw [ih]
      constructor
      · rintro ⟨c, hc, hz⟩
        exact ⟨c, List.mem_cons_of_mem _ hc, hz⟩
      · rintro ⟨c, hc, hz⟩
        rcases List.mem_cons.mp hc with rfl | hc'
        · exact absurd hz hD
        · exact ⟨c, hc', hz⟩

theorem nonDominance_fault (D sumOff : List ℚ) :
    (∃ c, nonDominance D sumOff = .error (.ratio c)) ↔ ∃ c, c < D.length ∧ D.getD c 0 = 0 := by
  have h := nonDominanceLoop_fault D sumOff (List.range D.length) ⟨0, 0, 0⟩
  simp only [List.mem_range] at h
  rw [← h]
  unfold nonDominance
  cases hl : nonDominanceLoop D sumOff (List.range D.length) ⟨0, 0, 0⟩ with
  | error e => simp
  | ok acc =>
    by_cases hz : D.length = 0
    · simp [hz]
    · simp [hz]

/-- C10, the claim fails as stated: with diagnostics enabled and `alpha = 1`, on
the one-cell system without faces and with `D0 = 0` the aggregated diagonal of
cell 0 is `0` and line 69 divides by `mag(D[0]) = 0`; no guard intervenes. -/
theorem diagnostic_divides_by_zero :
    (0 : ℚ) < 1
    ∧ (aggregate zeroDiag).1.getD 0 0 = 0
    ∧ (relax2 true 1 zeroDiag).2 = some (.error (.ratio 0)) := by
  have h1 : aggregate zeroDiag = ([0], [0]) := by
    simp [aggregate, zeroDiag, sumMagOffDiag]
  refine ⟨by norm_num, by rw [h1]; rfl, ?_⟩
  rw [relax2_pos true 1 zeroDiag (by norm_num), h1]
  simp [nonDominance, nonDominanceLoop, mag, List.range, List.range.loop]

/-- C10 as amended: with diagnostics enabled and `alpha > 0`, the ratio
`d = (sumOff[c] - D[c]) / |D[c]|` is computed by an unguarded division; a
division by zero occurs exactly when some cell's aggregated diagonal
`D0[c] + A[c]` is `0`, and none occurs when every aggregated diagonal is
non-zero. -/
theorem diagnostic_division_unguarded (alpha : ℚ) (m : fvMatrix) (ha : 0 < alpha) :
    (∃ c, (relax2 true alpha m).2 = some (.error (.ratio c)))
      ↔ ∃ c, c < m.diag.length ∧ m.diag.getD c 0 + boundaryAdded m c = 0 := by
  rw [relax2_pos true alpha m ha]
  simp only [if_true, Option.some.injEq]
  rw [nonDominance_fault, (aggregate_length m).1]
  constructor
  · rintro ⟨c, hc, hz⟩
    exact ⟨c, hc, by rw [← (aggregate_getD m c hc).1]; exact hz⟩
  · rintro ⟨c, hc, hz⟩
    exact ⟨c, hc, by rw [(aggregate_getD m c hc).1]; exact hz⟩

/-- Witness of the amended C10: on the end-to-end scenario every aggregated
diagonal is non-zero (`1 + 4 = 5`), so no ratio division is by zero. -/
theorem diagnostic_division_unguarded_witness :
    (0 : ℚ) < 1 / 2 ∧ ¬ ∃ c, (relax2 true (1 / 2) scenario).2 = some (.error (.ratio c)) := by
  refine ⟨by norm_num, ?_⟩
  rw [diagnostic_division_unguarded (1 / 2) scenario (by norm_num)]
  rintro ⟨c, hc, hz⟩
  have hc0 : c = 0 := by simpa [scenario] using hc
  subst hc0
  norm_num [boundaryAdded, boundarySum, faceSum, addedCoeff, scenario, cmptMax, cmptMag, mag,
    List.range, List.range.loop, List.filter] at hz

theorem boundarySum_perm (ps qs : List fvPatch) (g : fvPatch → Nat → ℚ) (c : Nat)
    (h : ps.Perm qs) : boundarySum ps g c = boundarySum qs g c := by
  unfold boundarySum
  exact (h.map _).sum_eq

theorem finalDiag_perm (alpha : ℚ) (m : fvMatrix) (ps : List fvPatch)
    (h : ps.Perm m.patches) :
    finalDiag alpha { m with patches := ps } = finalDiag alpha m := by
  apply list_eq_of_getD
  · rw [finalDiag_length, finalDiag_length]
  · intro c hc
    rw [finalDiag_length] at hc
    have hc' : c < m.diag.length := hc
    rw [finalDiag_getD alpha _ c hc, finalDiag_getD alpha m c hc']
    simp only [boundaryAdded, boundaryRemoved, sumOffTotal]
    rw [boundarySum_perm ps m.patches addedCoeff c h,
      boundarySum_perm ps m.patches offCoeff c h,
      boundarySum_perm ps m.patches removedCoeff c h]

/-- C11: patch order is immaterial. For every `alpha`, running `relax2` on the
system with its boundary patches permuted (each patch keeping its flag,
addressing and coefficients) gives the same final diagonal and source, also
when several patches address the same cell. -/
theorem patch_order_immaterial (debug : Bool) (alpha : ℚ) (m : fvMatrix) (ps : List fvPatch)
    (h : ps.Perm m.patches) :
    (relax2 debug alpha { m with patches := ps }).1.diag = (relax2 debug alpha m).1.diag
    ∧ (relax2 debug alpha { m with patches := ps }).1.source
        = (relax2 debug alpha m).1.source := by
  by_cases ha : alpha ≤ 0
  · rw [relax2_nonpos debug alpha _ ha, relax2_nonpos debug alpha m ha]
    exact ⟨rfl, rfl⟩
  · rw [relax2_pos debug alpha _ (not_le.mp ha), relax2_pos debug alpha m (not_le.mp ha)]
    simp only
    rw [finalDiag_perm alpha m ps h]
    exact ⟨rfl, rfl⟩

/-- Witness of C11: the two-cell system, whose cell 1 is addressed by both
patches, with the two patches swapped. -/
theorem patch_order_immaterial_witness :
    twoCell.patches.reverse.Perm twoCell.patches
    ∧ twoCell.patches.reverse ≠ twoCell.patches
    ∧ (relax2 false (1 / 2) { twoCell with patches := twoCell.patches.reverse }).1.diag
        = (relax2 false (1 / 2) twoCell).1.diag
    ∧ (relax2 false (1 / 2) { twoCell with patches := twoCell.patches.reverse }).1.source
        = (relax2 false (1 / 2) twoCell).1.source :=
  ⟨List.reverse_perm _, by simp [twoCell],
    (patch_order_immaterial false (1 / 2) twoCell twoCell.patches.reverse
      (List.reverse_perm _)).1,
    (patch_order_immaterial false (1 / 2) twoCell twoCell.patches.reverse
      (List.reverse_perm _)).2⟩

/-- C12: a smaller `alpha` gives a larger diagonal. For every cell `c` and all
`0 < a1 <= a2` the diagonal produced with `a1` is at least the one produced
with `a2`; so for `a1 <= 1` it is at least the one produced with `alpha = 1`,
which is dominance enforcement only: `max(|D0[c] + A[c]|, sumOff[c]) - R[c]`. -/
theorem diag_antitone_in_alpha (debug : Bool) (a1 a2 : ℚ) (m : fvMatrix) (c : Nat)
    (h1 : 0 < a1) (h12 : a1 ≤ a2) (hc : c < m.diag.length) :
    (relax2 debug a2 m).1.diag.getD c 0 ≤ (relax2 debug a1 m).1.diag.getD c 0
    ∧ (a1 ≤ 1 → (relax2 debug 1 m).1.diag.getD c 0 ≤ (relax2 debug a1 m).1.diag.getD c 0)
    ∧ (relax2 debug 1 m).1.diag.getD c 0
        = max |m.diag.getD c 0 + boundaryAdded m c| (sumOffTotal m c) - boundaryRemoved m c := by
  have h2 : 0 < a2 := lt_of_lt_of_le h1 h12
  have hM : 0 ≤ max |m.diag.getD c 0 + boundaryAdded m c| (sumOffTotal m c) :=
    le_trans (abs_nonneg _) (le_max_left _ _)
  have key : ∀ a b : ℚ, 0 < a → a ≤ b →
      (relax2 debug b m).1.diag.getD c 0 ≤ (relax2 debug a m).1.diag.getD c 0 := by
    intro a b ha hab
    rw [relax2_pos debug b m (lt_of_lt_of_le ha hab), relax2_pos debug a m ha]
    simp only
    rw [finalDiag_getD b m c hc, finalDiag_getD a m c hc]
    exact sub_le_sub_right (div_le_div_of_nonneg_left hM ha hab) _
  refine ⟨key a1 a2 h1 h12, fun h => key a1 1 h1 h, ?_⟩
  rw [relax2_pos debug 1 m (by norm_num)]
  simp only
  rw [finalDiag_getD 1 m c hc, div_one]

/-- Witness of C12 on the end-to-end scenario: `alpha = 1/2` gives `D = 6`,
`alpha = 1` gives `D = 1`. -/
theorem diag_antitone_in_alpha_witness :
    (0 : ℚ) < 1 / 2 ∧ (1 / 2 : ℚ) ≤ 1 ∧ 0 < scenario.diag.length
    ∧ (relax2 false 1 scenario).1.diag.getD 0 0
        ≤ (relax2 false (1 / 2) scenario).1.diag.getD 0 0 :=
  ⟨by norm_num, by norm_num, by simp [scenario],
    (diag_antitone_in_alpha false (1 / 2) 1 scenario 0 (by norm_num) (by norm_num)
      (by simp [scenario])).1⟩

/-- C13: frame. For every `alpha` the call changes only the diagonal and the
source: the interior off-diagonal coefficients, every patch (flag, addressing,
`internalCoeffs`, `boundaryCoeffs`) and the field's cell values are the same
after the call as before it. -/
theorem relax2_frame (debug : Bool) (alpha : ℚ) (m : fvMatrix) :
    (relax2 debug alpha m).1.interior = m.interior
    ∧ (relax2 debug alpha m).1.patches = m.patches
    ∧ (relax2 debug alpha m).1.psi = m.psi
    ∧ (relax2 debug alpha m).1
        = { m with diag := (relax2 debug alpha m).1.diag,
                   source := (relax2 debug alpha m).1.source } := by
  by_cases ha : alpha ≤ 0
  · rw [relax2_nonpos debug alpha m ha]
    exact ⟨rfl, rfl, rfl, rfl⟩
  · rw [relax2_pos debug alpha m (not_le.mp ha)]
    exact ⟨rfl, rfl, rfl, rfl⟩

theorem boundarySum_no_faces (ps : List fvPatch) (g : fvPatch → Nat → ℚ) (c : Nat)
    (hb : ∀ p ∈ ps, p.patchAddr = []) : boundarySum ps g c = 0 := by
  unfold boundarySum
  apply List.sum_eq_zero
  intro x hx
  rw [List.mem_map] at hx
  obtain ⟨p, hp, rfl⟩ := hx
  by_cases hs : p.size ≠ 0
  · rw [if_pos hs, hb p hp]
    simp [faceSum]
  · rw [if_neg hs]

theorem finalDiag_no_faces (alpha : ℚ) (m : fvMatrix) (c : Nat) (hc : c < m.diag.length)
    (hb : ∀ p ∈ m.patches, p.patchAddr = []) :
    (finalDiag alpha m).getD c 0 = max |m.diag.getD c 0| (sumOffTotal m c) / alpha := by
  rw [finalDiag_getD alpha m c hc]
  simp only [boundaryAdded, boundaryRemoved]
  rw [boundarySum_no_faces _ _ _ hb, boundarySum_no_faces _ _ _ hb, add_zero, sub_zero]

theorem finalDiag_no_faces_second (alpha : ℚ) (m : fvMatrix) (S : List Val) (c : Nat)
    (hc : c < m.diag.length) (hb : ∀ p ∈ m.patches, p.patchAddr = []) :
    (finalDiag alpha { m with diag := finalDiag alpha m, source := S }).getD c 0
      = max |max |m.diag.getD c 0| (sumOffTotal m c) / alpha| (sumOffTotal m c) / alpha := by
  have h := finalDiag_no_faces alpha { m with diag := finalDiag alpha m, source := S } c
    (by rw [finalDiag_length]; exact hc) hb
  rw [h]
  simp only [sumOffTotal]
  rw [finalDiag_no_faces alpha m c hc hb]
  rfl

theorem rescale_changes (x S a : ℚ) (ha : 0 < a) (ha1 : a ≠ 1) (hx : 0 ≤ x)
    (hM : max x S ≠ 0) :
    max |max x S / a| S / a ≠ max x S / a ↔ (a < 1 ∨ S < x) := by
  have hM0 : 0 ≤ max x S := le_trans hx (le_max_left _ _)
  have hMpos : 0 < max x S := lt_of_le_of_ne hM0 (Ne.symm hM)
  rw [abs_of_nonneg (div_nonneg hM0 ha.le), Ne, div_left_inj' ha.ne']
  rcases lt_or_gt_of_ne ha1 with hlt | hgt
  · have h1 : max x S < max x S / a := by
      rw [lt_div_iff₀ ha]
      nlinarith
    constructor
    · intro _; exact Or.inl hlt
    · intro _ h
      have := le_max_left (max x S / a) S
      linarith
  · have h1 : max x S / a < max x S := by
      rw [div_lt_iff₀ ha]
      nlinarith
    constructor
    · intro h
      right
      by_contra hxs
      push_neg at hxs
      apply h
      rw [max_eq_right hxs] at h1 ⊢
      exact max_eq_right h1.le
    · rintro (h | h)
      · linarith
      · intro heq
        rw [max_eq_left h.le] at h1 heq
        have := max_lt h1 h
        linarith

/-- C14, the claim fails as stated: on the two-cell system without boundary
faces (`D0 = 1`, `sumOff = 1` in both cells, so `max(|D0|, sumOff) = 1`) a call
with `alpha = 2` gives `D = 1/2` in both cells and a second call with
`alpha = 2` leaves it at `1/2`. -/
theorem second_call_keeps_diag :
    (0 : ℚ) < 2 ∧ (2 : ℚ) ≠ 1 ∧ interiorPair.patches = []
    ∧ max |interiorPair.diag.getD 0 0| (sumOffTotal interiorPair 0) = 1
    ∧ (relax2 false 2 interiorPair).1.diag = [1 / 2, 1 / 2]
    ∧ (relax2 false 2 (relax2 false 2 interiorPair).1).1.diag = [1 / 2, 1 / 2] := by
  have h0 : max |interiorPair.diag.getD 0 0| (sumOffTotal interiorPair 0) = 1 := by
    norm_num [sumOffTotal, interiorSumMag, boundarySum, interiorPair, mag, List.filter]
  have h1 : (relax2 false 2 interiorPair).1
      = ⟨[1 / 2, 1 / 2], [[-1 / 2], [-1 / 2]], [⟨0, 1, 1, 1⟩], [[1], [1]], []⟩ := by
    rw [relax2_pos false 2 interiorPair (by norm_num)]
    norm_num [finalDiag, relaxedDiag, aggregate, interiorPair, sumMagOffDiag, addAt, mag,
      dominant, scaleDiag, updateSource, vadd, vscale]
  have h2 : (relax2 false 2 (relax2 false 2 interiorPair).1).1.diag = [1 / 2, 1 / 2] := by
    rw [h1, relax2_pos false 2 _ (by norm_num)]
    norm_num [finalDiag, relaxedDiag, aggregate, sumMagOffDiag, addAt, mag, dominant,
      scaleDiag, abs_div]
  exact ⟨by norm_num, by norm_num, rfl, h0, by rw [h1], h2⟩

/-- C14 as amended: for every `alpha > 0` with `alpha != 1` and every system
without boundary faces that has a cell `c` with
`max(|D0[c]|, sumOff[c]) != 0`, a second call with the same `alpha` changes
`D[c]` again exactly when `alpha < 1` or `sumOff[c] < |D0[c]|`; for
`alpha > 1` and `|D0[c]| <= sumOff[c]` the second call leaves `D[c]` as it is. -/
theorem second_call_changes_diag (debug : Bool) (alpha : ℚ) (m : fvMatrix) (c : Nat)
    (ha : 0 < alpha) (ha1 : alpha ≠ 1) (hb : ∀ p ∈ m.patches, p.patchAddr = [])
    (hc : c < m.diag.length) (hM : max |m.diag.getD c 0| (sumOffTotal m c) ≠ 0) :
    (relax2 debug alpha (relax2 debug alpha m).1).1.diag.getD c 0
        ≠ (relax2 debug alpha m).1.diag.getD c 0
      ↔ (alpha < 1 ∨ sumOffTotal m c < |m.diag.getD c 0|) := by
  rw [relax2_pos debug alpha m ha, relax2_pos debug alpha _ ha]
  simp only
  rw [finalDiag_no_faces_second alpha m _ c hc hb, finalDiag_no_faces alpha m c hc hb]
  exact rescale_changes _ _ alpha ha ha1 (abs_nonneg _) hM

/-- Witness of the amended C14: the one-cell system without faces and with
`D0 = 1`, called with `alpha = 1/2`; the diagonal goes from `1` to `2` and
then to `4`. -/
theorem second_call_changes_diag_witness :
    (relax2 false (1 / 2) (relax2 false (1 / 2) unitCell).1).1.diag.getD 0 0
      ≠ (relax2 false (1 / 2) unitCell).1.diag.getD 0 0 :=
  (second_call_changes_diag false (1 / 2) unitCell 0 (by norm_num) (by norm_num)
    (by simp [unitCell]) (by simp [unitCell])
    (by norm_num [unitCell, sumOffTotal, interiorSumMag, boundarySum])).mpr
    (Or.inl (by norm_num))

/-- C15: effective dominance before the boundary reversal. For every
`alpha > 0` and every cell `c`, the diagonal after dominance enforcement and
scaling is non-negative and, times `alpha`, at least the accumulated
`sumOff[c]`; hence `(D_final[c] + R[c]) * alpha >= sumOff[c]`, and for a system
without boundary faces `D_final[c] * alpha = max(|D0[c]|, sumOff[c])`, which is
at least `sumOff[c]`. -/
theorem effective_dominance (debug : Bool) (alpha : ℚ) (m : fvMatrix) (c : Nat)
    (ha : 0 < alpha) (hc : c < m.diag.length) :
    0 ≤ (relaxedDiag alpha m).getD c 0
    ∧ (aggregate m).2.getD c 0 ≤ (relaxedDiag alpha m).getD c 0 * alpha
    ∧ (aggregate m).2.getD c 0 = sumOffTotal m c
    ∧ sumOffTotal m c
        ≤ ((relax2 debug alpha m).1.diag.getD c 0 + boundaryRemoved m c) * alpha
    ∧ ((∀ p ∈ m.patches, p.patchAddr = []) →
        (relax2 debug alpha m).1.diag.getD c 0 * alpha
            = max |m.diag.getD c 0| (sumOffTotal m c)
        ∧ sumOffTotal m c ≤ (relax2 debug alpha m).1.diag.getD c 0 * alpha) := by
  have hM : 0 ≤ max |m.diag.getD c 0 + boundaryAdded m c| (sumOffTotal m c) :=
    le_trans (abs_nonneg _) (le_max_left _ _)
  have hs := (aggregate_getD m c hc).2
  rw [relax2_pos debug alpha m ha]
  simp only
  rw [hs, relaxedDiag_getD alpha m c hc, finalDiag_getD alpha m c hc, sub_add_cancel,
    div_mul_cancel₀ _ ha.ne']
  refine ⟨div_nonneg hM ha.le, le_max_right _ _, rfl, le_max_right _ _, ?_⟩
  intro hb
  simp only [boundaryAdded, boundaryRemoved]
  rw [boundarySum_no_faces _ _ _ hb, boundarySum_no_faces _ _ _ hb, add_zero, sub_zero,
    div_mul_cancel₀ _ ha.ne']
  exact ⟨rfl, le_max_right _ _⟩

/-- Witness of C15 on the two-cell system with `alpha = 1/2`, at cell 0, where
`sumOff = 5` and the scaled diagonal is `10`. -/
theorem effective_dominance_witness :
    (0 : ℚ) < 1 / 2 ∧ 0 < twoCell.diag.length
    ∧ 0 ≤ (relaxedDiag (1 / 2) twoCell).getD 0 0
    ∧ (aggregate twoCell).2.getD 0 0 ≤ (relaxedDiag (1 / 2) twoCell).getD 0 0 * (1 / 2) :=
  ⟨by norm_num, by simp [twoCell],
    (effective_dominance false (1 / 2) twoCell 0 (by norm_num) (by simp [twoCell])).1,
    (effective_dominance false (1 / 2) twoCell 0 (by norm_num) (by simp [twoCell])).2.1⟩

/-- C17: relaxation never lowers the diagonal. For every `alpha` in `(0, 1]` and
every cell `c`, the boundary amount added is at least the amount subtracted,
`R[c] <= A[c]`, the scaled diagonal is at least the aggregated one, and
`D_final[c] >= D0[c]`; for `alpha = 2` the diagonal of the end-to-end scenario
decreases. -/
theorem diag_not_lowered (debug : Bool) (alpha : ℚ) (m : fvMatrix) (c : Nat)
    (ha : 0 < alpha) (ha1 : alpha ≤ 1) (hc : c < m.diag.length) :
    boundaryRemoved m c ≤ boundaryAdded m c
    ∧ m.diag.getD c 0 + boundaryAdded m c
        ≤ max |m.diag.getD c 0 + boundaryAdded m c| (sumOffTotal m c) / alpha
    ∧ m.diag.getD c 0 ≤ (relax2 debug alpha m).1.diag.getD c 0
    ∧ ∃ (a : ℚ) (m' : fvMatrix) (c' : Nat), 1 < a ∧ c' < m'.diag.length
        ∧ (relax2 debug a m').1.diag.getD c' 0 < m'.diag.getD c' 0 := by
  have hAR := boundaryRemoved_le_boundaryAdded m c
  have hM : 0 ≤ max |m.diag.getD c 0 + boundaryAdded m c| (sumOffTotal m c) :=
    le_trans (abs_nonneg _) (le_max_left _ _)
  have h1 : max |m.diag.getD c 0 + boundaryAdded m c| (sumOffTotal m c)
      ≤ max |m.diag.getD c 0 + boundaryAdded m c| (sumOffTotal m c) / alpha := by
    rw [le_div_iff₀ ha]
    nlinarith
  have h2 : m.diag.getD c 0 + boundaryAdded m c
      ≤ max |m.diag.getD c 0 + boundaryAdded m c| (sumOffTotal m c) :=
    le_trans (le_abs_self _) (le_max_left _ _)
  refine ⟨hAR, le_trans h2 h1, ?_, 2, scenario, 0, by norm_num, by simp [scenario], ?_⟩
  · rw [relax2_pos debug alpha m ha]
    simp only
    rw [finalDiag_getD alpha m c hc]
    linarith
  · rw [relax2_pos debug 2 scenario (by norm_num)]
    simp only
    rw [finalDiag_getD 2 scenario 0 (by simp [scenario])]
    norm_num [boundaryAdded, boundaryRemoved, sumOffTotal, interiorSumMag, boundarySum,
      faceSum, addedCoeff, removedCoeff, offCoeff, scenario, cmptMax, cmptMag, cmptMin, mag,
      List.range, List.range.loop, List.filter]

/-- Witness of C17 on the two-cell system with `alpha = 1/2`, at cell 1, where
the diagonal goes from `-2` to `6`. -/
theorem diag_not_lowered_witness :
    (0 : ℚ) < 1 / 2 ∧ (1 / 2 : ℚ) ≤ 1 ∧ 1 < twoCell.diag.length
    ∧ twoCell.diag.getD 1 0 ≤ (relax2 false (1 / 2) twoCell).1.diag.getD 1 0 :=
  ⟨by norm_num, by norm_num, by simp [twoCell],
    (diag_not_lowered false (1 / 2) twoCell 1 (by norm_num) (by norm_num)
      (by simp [twoCell])).2.2.1⟩

theorem foldl_min_le_mem (xs : List ℚ) (x y : ℚ) (hy : y ∈ x :: xs) : xs.foldl min x ≤ y := by
  induction xs generalizing x with
  | nil =>
    have : y = x := by simpa using hy
    rw [this]
    exact le_refl x
  | cons z zs ih =>
    rw [List.foldl_cons]
    rcases List.mem_cons.mp hy with h | h
    · rw [h]
      exact le_trans (foldl_min_le zs (min x z)) (min_le_left x z)
    · rcases List.mem_cons.mp h with h' | h'
      · rw [h']
        exact le_trans (foldl_min_le zs (min x z)) (min_le_right x z)
      · exact ih (min x z) (List.mem_cons_of_mem _ h')

theorem le_foldl_max_mem (xs : List ℚ) (x y : ℚ) (hy : y ∈ x :: xs) : y ≤ xs.foldl max x := by
  induction xs generalizing x with
  | nil =>
    have : y = x := by simpa using hy
    rw [this]
    exact le_refl x
  | cons z zs ih =>
    rw [List.foldl_cons]
    rcases List.mem_cons.mp hy with h | h
    · rw [h]
      exact le_trans (le_max_left x z) (le_foldl_max zs (max x z))
    · rcases List.mem_cons.mp h with h' | h'
      · rw [h']
        exact le_trans (le_max_right x z) (le_foldl_max zs (max x z))
      · exact ih (max x z) (List.mem_cons_of_mem _ h')

theorem foldl_min_mem (xs : List ℚ) (x : ℚ) : xs.foldl min x ∈ x :: xs := by
  induction xs generalizing x with
  | nil => simp
  | cons z zs ih =>
    rw [List.foldl_cons]
    rcases List.mem_cons.mp (ih (min x z)) with h | h
    · rw [h]
      rcases min_choice x z with hx | hz
      · rw [hx]; exact List.mem_cons_self _ _
      · rw [hz]; exact List.mem_cons_of_mem _ (List.mem_cons_self _ _)
    · exact List.mem_cons_of_mem _ (List.mem_cons_of_mem _ h)

theorem foldl_max_mem (xs : List ℚ) (x : ℚ) : xs.foldl max x ∈ x :: xs := by
  induction xs generalizing x with
  | nil => simp
  | cons z zs ih =>
    rw [List.foldl_cons]
    rcases List.mem_cons.mp (ih (max x z)) with h | h
    · rw [h]
      rcases max_choice x z with hx | hz
      · rw [hx]; exact List.mem_cons_self _ _
      · rw [hz]; exact List.mem_cons_of_mem _ (List.mem_cons_self _ _)
    · exact List.mem_cons_of_mem _ (List.mem_cons_of_mem _ h)

theorem cmptMin_le_of_mem (v : Val) (y : ℚ) (hy : y ∈ v) : cmptMin v ≤ y := by
  cases v with
  | nil => simp at hy
  | cons x xs => exact foldl_min_le_mem xs x y hy

theorem cmptMin_mem (v : Val) (hv : v ≠ []) : cmptMin v ∈ v := by
  cases v with
  | nil => exact absurd rfl hv
  | cons x xs => exact foldl_min_mem xs x

theorem mag_le_cmptMax_cmptMag (v : Val) (y : ℚ) (hy : y ∈ v) : |y| ≤ cmptMax (cmptMag v) := by
  cases v with
  | nil => simp at hy
  | cons x xs =>
    show |y| ≤ (xs.map mag).foldl max (mag x)
    apply le_foldl_max_mem
    have : mag y ∈ (x :: xs).map mag := List.mem_map_of_mem mag hy
    simpa [mag] using this

theorem cmptMax_cmptMag_mem (v : Val) (hv : v ≠ []) : ∃ y, y ∈ v ∧ cmptMax (cmptMag v) = |y| := by
  cases v with
  | nil => exact absurd rfl hv
  | cons x xs =>
    have h : (xs.map mag).foldl max (mag x) ∈ (x :: xs).map mag := foldl_max_mem _ _
    rw [List.mem_map] at h
    obtain ⟨y, hy, hyv⟩ := h
    exact ⟨y, hy, hyv.symm⟩

theorem retained_zero_iff (v : Val) :
    cmptMax (cmptMag v) - cmptMin v = 0 ↔ ∃ a, 0 ≤ a ∧ ∀ x ∈ v, x = a := by
  by_cases hv : v = []
  · subst hv
    simp only [cmptMag, cmptMax, cmptMin, List.map_nil, sub_self, true_iff]
    exact ⟨0, le_refl 0, fun x hx => by simp at hx⟩
  · constructor
    · intro h
      have heq : cmptMax (cmptMag v) = cmptMin v := by linarith
      have hall : ∀ x ∈ v, x = cmptMin v := by
        intro x hx
        have h1 := cmptMin_le_of_mem v x hx
        have h2 := mag_le_cmptMax_cmptMag v x hx
        have h3 := le_abs_self x
        linarith
      refine ⟨cmptMin v, ?_, hall⟩
      have hm := cmptMin_mem v hv
      have h2 := mag_le_cmptMax_cmptMag v _ hm
      have h3 := abs_nonneg (cmptMin v)
      linarith
    · rintro ⟨a, ha, hall⟩
      have h1 : cmptMin v = a := hall _ (cmptMin_mem v hv)
      obtain ⟨y, hy, hmax⟩ := cmptMax_cmptMag_mem v hv
      rw [hmax, hall y hy, h1, abs_of_nonneg ha, sub_self]

theorem removePatch_addPatch_noncoupled (p : fvPatch) (st : List ℚ × List ℚ) (c : Nat)
    (hcp : p.coupled = false) (hc : c < st.1.length) :
    (removePatch p (addPatch p st).1).getD c 0
      = st.1.getD c 0 + (if p.size ≠ 0 then
          faceSum p.patchAddr (fun face => cmptMax (cmptMag (p.internalCoeffs.getD face []))
            - cmptMin (p.internalCoeffs.getD face [])) c else 0) := by
  have hcp' : ¬p.coupled = true := by simp [hcp]
  rw [removePatch_getD _ _ _ (by rw [(addPatch_length p st).1]; exact hc)]
  unfold addPatch
  by_cases hs : p.size ≠ 0
  · rw [if_pos hs, if_pos hs, if_pos hs, if_neg hcp', removedCoeff_noncoupled p hcp']
    simp only
    rw [getD_faceLoop _ _ _ _ hc, faceSum_sub]
    ring
  · rw [if_neg hs, if_neg hs, if_neg hs]
    ring

/-- C18: retained inflation of a non-coupled face. For every value `v` the
amount added minus the amount subtracted, `cmptMax(cmptMag(v)) - cmptMin(v)`,
is non-negative, and it is `0` exactly when all components of `v` are equal and
non-negative; a negative scalar coefficient `c` leaves `2 * |c|`, a
non-negative one leaves nothing. On a non-coupled patch the two patch loops
together leave the sum of these amounts on the diagonal of each cell. -/
theorem retained_inflation (v : Val) :
    0 ≤ cmptMax (cmptMag v) - cmptMin v
    ∧ (cmptMax (cmptMag v) - cmptMin v = 0 ↔ ∃ a, 0 ≤ a ∧ ∀ x ∈ v, x = a)
    ∧ (∀ c : ℚ, c < 0 → cmptMax (cmptMag [c]) - cmptMin [c] = 2 * |c|)
    ∧ (∀ c : ℚ, 0 ≤ c → cmptMax (cmptMag [c]) - cmptMin [c] = 0)
    ∧ (∀ (p : fvPatch) (st : List ℚ × List ℚ) (c : Nat), p.coupled = false →
        c < st.1.length →
        (removePatch p (addPatch p st).1).getD c 0
          = st.1.getD c 0 + (if p.size ≠ 0 then
              faceSum p.patchAddr (fun face =>
                cmptMax (cmptMag (p.internalCoeffs.getD face []))
                  - cmptMin (p.internalCoeffs.getD face [])) c else 0)) := by
  refine ⟨sub_nonneg.mpr (cmptMin_le_cmptMax_cmptMag v), retained_zero_iff v, ?_, ?_,
    removePatch_addPatch_noncoupled⟩
  · intro c hc
    simp only [cmptMag, cmptMax, cmptMin, mag, List.map_cons, List.map_nil, List.foldl_nil]
    rw [abs_of_neg hc]
    ring
  · intro c hc
    simp only [cmptMag, cmptMax, cmptMin, mag, List.map_cons, List.map_nil, List.foldl_nil]
    rw [abs_of_nonneg hc]
    ring

theorem positiveRatios_cons (D sumOff : List ℚ) (c : Nat) (cells : List Nat) :
    positiveRatios D sumOff (c :: cells)
      = if 0 < nonDomRatio D sumOff c then
          nonDomRatio D sumOff c :: positiveRatios D sumOff cells
        else positiveRatios D sumOff cells := by
  unfold positiveRatios
  by_cases h : 0 < nonDomRatio D sumOff c
  · simp [List.filter_cons, h]
  · simp [List.filter_cons, h]

theorem positiveRatios_length_le (D sumOff : List ℚ) (cells : List Nat) :
    (positiveRatios D sumOff cells).length ≤ cells.length := by
  unfold positiveRatios
  exact le_trans (List.length_filter_le _ _) (by simp)

theorem positiveRatios_pos (D sumOff : List ℚ) (cells : List Nat) (d : ℚ)
    (hd : d ∈ positiveRatios D sumOff cells) : 0 < d := by
  unfold positiveRatios at hd
  rw [List.mem_filter] at hd
  simpa using hd.2

theorem nonDominanceLoop_ok (D sumOff : List ℚ) (cells : List Nat) (acc : NonDominance)
    (h : ∀ c, c ∈ cells → D.getD c 0 ≠ 0) :
    nonDominanceLoop D sumOff cells acc
      = .ok ⟨acc.nNon + (positiveRatios D sumOff cells).length,
             (positiveRatios D sumOff cells).foldl max acc.maxNon,
             acc.sumNon + (positiveRatios D sumOff cells).sum⟩ := by
  induction cells generalizing acc with
  | nil => simp [nonDominanceLoop, positiveRatios]
  | cons c rest ih =>
    have hc : mag (D.getD c 0) ≠ 0 := by
      simpa [mag] using h c (List.mem_cons_self _ _)
    have hrest : ∀ c', c' ∈ rest → D.getD c' 0 ≠ 0 :=
      fun c' hc' => h c' (List.mem_cons_of_mem _ hc')
    unfold nonDominanceLoop
    rw [if_neg hc]
    simp only []
    rw [ih _ hrest, positiveRatios_cons]
    have hd : (sumOff.getD c 0 - D.getD c 0) / mag (D.getD c 0) = nonDomRatio D sumOff c := rfl
    rw [hd]
    by_cases hp : 0 < nonDomRatio D sumOff c
    · have hp' : nonDomRatio D sumOff c > 0 := hp
      rw [if_pos hp, if_pos hp']
      simp only [List.length_cons, List.foldl_cons, List.sum_cons]
      congr 2
      · omega
      · ring
    · have hp' : ¬ nonDomRatio D sumOff c > 0 := hp
      rw [if_neg hp, if_neg hp']

theorem nonDominance_ok (D sumOff : List ℚ) (hn : D.length ≠ 0)
    (h : ∀ c, c < D.length → D.getD c 0 ≠ 0) :
    nonDominance D sumOff
      = .ok ⟨(positiveRatios D sumOff (List.range D.length)).length,
             (positiveRatios D sumOff (List.range D.length)).foldl max 0,
             (positiveRatios D sumOff (List.range D.length)).sum / (D.length : ℚ)⟩ := by
  unfold nonDominance
  rw [nonDominanceLoop_ok D sumOff (List.range D.length) ⟨0, 0, 0⟩
    (fun c hc => h c (List.mem_range.mp hc))]
  simp only [if_neg hn, zero_add]

theorem sum_le_length_mul (P : List ℚ) (b : ℚ) (h : ∀ d ∈ P, d ≤ b) :
    P.sum ≤ (P.length : ℚ) * b := by
  induction P with
  | nil => simp
  | cons d P ih =>
    have h1 := h d (List.mem_cons_self _ _)
    have h2 := ih (fun x hx => h x (List.mem_cons_of_mem _ hx))
    simp only [List.sum_cons, List.length_cons, Nat.cast_add, Nat.cast_one]
    linarith

theorem statistics_relations (P : List ℚ) (n : Nat) (hpos : ∀ d ∈ P, 0 < d)
    (hlen : P.length ≤ n) (hn : n ≠ 0) :
    (∀ d ∈ P, d ≤ P.foldl max 0)
    ∧ (P = [] → P.foldl max 0 = 0)
    ∧ (P ≠ [] → P.foldl max 0 ∈ P)
    ∧ (P.length = 0 ↔ P.foldl max 0 = 0)
    ∧ P.sum / (n : ℚ) ≤ P.foldl max 0 := by
  have hle : ∀ d ∈ P, d ≤ P.foldl max 0 :=
    fun d hd => le_foldl_max_mem P 0 d (List.mem_cons_of_mem _ hd)
  have h0 : (0 : ℚ) ≤ P.foldl max 0 := le_foldl_max P 0
  have hmem : P ≠ [] → P.foldl max 0 ∈ P := by
    intro hne
    rcases List.mem_cons.mp (foldl_max_mem P 0) with h | h
    · obtain ⟨d, hd⟩ := List.exists_mem_of_ne_nil P hne
      have := hle d hd
      have := hpos d hd
      linarith
    · exact h
  have hnil : P = [] → P.foldl max 0 = 0 := by
    intro h
    rw [h]
    rfl
  refine ⟨hle, hnil, hmem, ?_, ?_⟩
  · constructor
    · intro h
      exact hnil (List.length_eq_zero.mp h)
    · intro h
      by_contra hne
      have hne' : P ≠ [] := fun hP => hne (by rw [hP]; rfl)
      have := hpos _ (hmem hne')
      linarith
  · have hnpos : (0 : ℚ) < n := by exact_mod_cast Nat.pos_of_ne_zero hn
    rw [div_le_iff₀ hnpos]
    have h1 := sum_le_length_mul P _ hle
    have h2 : (P.length : ℚ) ≤ n := by exact_mod_cast hlen
    nlinarith

/-- C16: the statistics of the dominance test on a single partition, for a
system with at least one cell and no zero aggregated diagonal (so that every
`d[c] = (sumOff[c] - D[c]) / |D[c]|` is defined). With the aggregated `D` and
`sumOff`, the reported count is the number of cells with `d[c] > 0`, the
reported maximum is the largest such `d[c]` (`0` when there is none) and the
reported average is the sum of the positive `d[c]` divided by the cell count;
the count is `0` iff the maximum is `0`, and the average is at most the maximum. -/
theorem dominance_statistics (alpha : ℚ) (m : fvMatrix) (ha : 0 < alpha)
    (hn : m.diag.length ≠ 0) (hD : ∀ c, c < m.diag.length → (aggregate m).1.getD c 0 ≠ 0) :
    (relax2 true alpha m).2
        = some (.ok
            ⟨(positiveRatios (aggregate m).1 (aggregate m).2 (List.range m.diag.length)).length,
             (positiveRatios (aggregate m).1 (aggregate m).2
                (List.range m.diag.length)).foldl max 0,
             (positiveRatios (aggregate m).1 (aggregate m).2 (List.range m.diag.length)).sum
                / (m.diag.length : ℚ)⟩)
    ∧ (∀ d ∈ positiveRatios (aggregate m).1 (aggregate m).2 (List.range m.diag.length),
        d ≤ (positiveRatios (aggregate m).1 (aggregate m).2
              (List.range m.diag.length)).foldl max 0)
    ∧ (positiveRatios (aggregate m).1 (aggregate m).2 (List.range m.diag.length) = [] →
        (positiveRatios (aggregate m).1 (aggregate m).2
          (List.range m.diag.length)).foldl max 0 = 0)
    ∧ (positiveRatios (aggregate m).1 (aggregate m).2 (List.range m.diag.length) ≠ [] →
        (positiveRatios (aggregate m).1 (aggregate m).2 (List.range m.diag.length)).foldl max 0
          ∈ positiveRatios (aggregate m).1 (aggregate m).2 (List.range m.diag.length))
    ∧ ((positiveRatios (aggregate m).1 (aggregate m).2 (List.range m.diag.length)).length = 0
        ↔ (positiveRatios (aggregate m).1 (aggregate m).2
            (List.range m.diag.length)).foldl max 0 = 0)
    ∧ (positiveRatios (aggregate m).1 (aggregate m).2 (List.range m.diag.length)).sum
          / (m.diag.length : ℚ)
        ≤ (positiveRatios (aggregate m).1 (aggregate m).2
            (List.range m.diag.length)).foldl max 0 := by
  have hl := (aggregate_length m).1
  refine ⟨?_, statistics_relations _ m.diag.length
    (fun d hd => positiveRatios_pos _ _ _ d hd)
    (le_trans (positiveRatios_length_le _ _ _) (by simp)) hn⟩
  rw [relax2_pos true alpha m ha]
  simp only [if_true]
  rw [nonDominance_ok _ _ (by rw [hl]; exact hn) (by rw [hl]; exact hD), hl]

/-- Witness of C16 on the two-cell system: the aggregated diagonal is `[4, 5]`
and `sumOff` is `[5, 2]`, so only cell 0 is non-dominant, with `d = 1/4`; the
report is count `1`, maximum `1/4`, average `1/8`. -/
theorem dominance_statistics_witness :
    (relax2 true (1 / 2) twoCell).2 = some (.ok ⟨1, 1 / 4, 1 / 8⟩) := by
  have hagg : aggregate twoCell = ([4, 5], [5, 2]) := by
    norm_num [aggregate, twoCell, addPatch, faceLoop, sumMagOffDiag, addAt, component, cmptMax,
      cmptMag, mag, List.range, List.range.loop]
  have h := (dominance_statistics (1 / 2) twoCell (by norm_num) (by simp [twoCell])
    (by
      rw [hagg]
      intro c hc
      have hc2 : c < 2 := by simpa [twoCell] using hc
      interval_cases c <;> norm_num)).1
  rw [h, hagg]
  norm_num [positiveRatios, nonDomRatio, twoCell, List.range, List.range.loop, List.filter]

end Foam
